import Mathlib

/-!
# cpulimit: the duty-cycle controller of `limit_process`

A shallow embedding of `src/cpulimit.c` and of the configuration check of
`src/main.c`.

* C `double` values are carried by `Double`: a finite value is an exact
  rational (rounding is not modelled), and the three IEEE-754 special values
  `+inf`, `-inf`, `NaN` are kept, because `workingrate / pcpu` divides by a
  measured quantity that can be zero.
* C `long` values (`tv_nsec`) are integers; the conversion from `double` and the
  subtraction are partial (`Option`) where C leaves them undefined.
* System calls (`kill`, `nanosleep`, `setpriority`) and the process-group
  routines that are not part of these sources (`init_process_group`,
  `update_process_group`) are fields of an explicit system record `Sys`,
  threaded through an abstract world state; every call is recorded in a trace.
-/

namespace Cpulimit

/-! ## C doubles -/

/-- A C `double`: an exact rational, or one of the IEEE-754 special values.
The finite zero stands for `+0.0`. -/
inductive Double where
  | fin (q : ℚ)
  | pinf
  | ninf
  | nan
  deriving DecidableEq

namespace Double

/-- Conversion of a C integer to `double`. -/
def ofInt (i : Int) : Double := fin (i : ℚ)

/-- The C comparison `a < b`; any comparison with NaN is false. -/
def lt : Double → Double → Bool
  | fin a, fin b => decide (a < b)
  | fin _, pinf => true
  | fin _, ninf => false
  | pinf, _ => false
  | ninf, fin _ => true
  | ninf, pinf => true
  | ninf, ninf => false
  | nan, _ => false
  | _, nan => false

/-- The C comparison `a > b`. -/
def gt (a b : Double) : Bool := lt b a

/-- The sign of a rational applied to an infinity: the product `q * (+inf)`. -/
def signedInf (q : ℚ) : Double :=
  if 0 < q then pinf else if q < 0 then ninf else nan

/-- Negation. -/
def neg : Double → Double
  | fin a => fin (-a)
  | pinf => ninf
  | ninf => pinf
  | nan => nan

/-- The C addition `a + b`. -/
def add : Double → Double → Double
  | fin a, fin b => fin (a + b)
  | fin _, pinf => pinf
  | fin _, ninf => ninf
  | pinf, fin _ => pinf
  | pinf, pinf => pinf
  | pinf, ninf => nan
  | ninf, fin _ => ninf
  | ninf, ninf => ninf
  | ninf, pinf => nan
  | nan, _ => nan
  | _, nan => nan

/-- The C multiplication `a * b`. A finite product is the exact one: the
rounding of the result to the nearest binary64 value is left out, so a finite
result here can differ from the one in C in its last bits. -/
def mul : Double → Double → Double
  | fin a, fin b => fin (a * b)
  | fin a, pinf => signedInf a
  | fin a, ninf => neg (signedInf a)
  | pinf, fin b => signedInf b
  | ninf, fin b => neg (signedInf b)
  | pinf, pinf => pinf
  | pinf, ninf => ninf
  | ninf, pinf => ninf
  | ninf, ninf => pinf
  | nan, _ => nan
  | _, nan => nan

/-- The C division `a / b`. A finite zero divisor is `+0.0`: a non-zero
dividend gives the infinity of its sign, and `0 / 0` is NaN. A finite quotient
is the exact one: the rounding to binary64 is left out. -/
def div : Double → Double → Double
  | fin a, fin b => if b = 0 then signedInf a else fin (a / b)
  | fin _, pinf => fin 0
  | fin _, ninf => fin 0
  | pinf, fin b => if 0 ≤ b then pinf else ninf
  | ninf, fin b => if 0 ≤ b then ninf else pinf
  | pinf, pinf => nan
  | pinf, ninf => nan
  | ninf, pinf => nan
  | ninf, ninf => nan
  | nan, _ => nan
  | _, nan => nan

/-- Truncation toward zero of a rational. -/
def trunc (q : ℚ) : Int := if 0 ≤ q then ⌊q⌋ else ⌈q⌉

/-- Smallest value of a 64-bit `long`. -/
def LONG_MIN : Int := -(2 ^ 63)

/-- Largest value of a 64-bit `long`. -/
def LONG_MAX : Int := 2 ^ 63 - 1

/-- Conversion of a `double` to `long` by assignment: the fractional part is
discarded; the conversion is undefined when the truncated value does not fit,
and for the special values. -/
def toLong : Double → Option Int
  | fin q => if LONG_MIN ≤ trunc q ∧ trunc q ≤ LONG_MAX then some (trunc q) else none
  | _ => none

end Double

/-- The macro `MIN(a,b) (((a)<(b))?(a):(b))`. -/
def MIN (a b : Double) : Double := if Double.lt a b then a else b

/-- Subtraction of two `long` values; signed overflow is undefined. -/
def long_sub (a b : Int) : Option Int :=
  if Double.LONG_MIN ≤ a - b ∧ a - b ≤ Double.LONG_MAX then some (a - b) else none

/-- The control time slot in microseconds: `#define TIME_SLOT 100000`. -/
def TIME_SLOT : Int := 100000

/-- `#define MAX_PRIORITY -10`. -/
def MAX_PRIORITY : Int := -10

/-! ## The timing computation of one cycle (`cpulimit.c`, lines 265-276) -/

/-- The values the timing computation leaves behind. -/
structure Timing where
  pcpu : Double
  workingrate : Double
  twork : Int
  tsleep : Int
  deriving DecidableEq

/-- Lines 265-276 of `limit_process`: from the limit, the `workingrate` carried
over from the previous cycle and the aggregate `pcpu` of this cycle, the new
`workingrate` and the `tv_nsec` fields of `twork` and `tsleep`. The result is
`none` where a conversion to `long` or the subtraction is undefined in C. -/
def adjust (limit workingrate pcpu : Double) : Option Timing :=
  if Double.lt pcpu (Double.ofInt 0) then
    -- it's the 1st cycle, initialize workingrate
    match Double.toLong (Double.mul (Double.mul (Double.ofInt TIME_SLOT) limit) (Double.ofInt 1000)) with
    | none => none
    | some twork =>
      match long_sub (TIME_SLOT * 1000) twork with
      | none => none
      | some tsleep => some ⟨limit, limit, twork, tsleep⟩
  else
    -- adjust workingrate
    let workingrate1 := MIN (Double.mul (Double.div workingrate pcpu) limit) (Double.ofInt 1)
    match Double.toLong (Double.mul (Double.ofInt (TIME_SLOT * 1000)) workingrate1) with
    | none => none
    | some twork =>
      match long_sub (TIME_SLOT * 1000) twork with
      | none => none
      | some tsleep => some ⟨pcpu, workingrate1, twork, tsleep⟩

/-! ## Processes, signals and the trace of system calls -/

/-- One tracked process (`struct process`): only the two fields that
`cpulimit.c` reads. A negative `cpu_usage` means that no reading exists yet. -/
structure Process where
  pid : Int
  cpu_usage : Double
  deriving DecidableEq

/-- The two signals that `cpulimit.c` sends. -/
inductive Signal where
  | SIGCONT
  | SIGSTOP
  deriving DecidableEq

/-- The texts written by `cpulimit.c` and by the checks of `main`; the
formatted numbers are left out, except for the pid of a dead process. -/
inductive Message where
  | priority_changed
  | cannot_change_priority
  | members_in_group
  | no_more_processes
  | table_header
  | table_row
  | sigcont_failed (pid : Int)
  | sigstop_failed (pid : Int)
  | carriage_return
  | usage
  | invalid_pid
  | no_limit
  | limit_out_of_range
  | no_target
  | several_targets
  deriving DecidableEq

/-- One observable action of the program. `kill` carries whether the delivery
succeeded (`kill(...) == 0`). -/
inductive Event where
  | setpriority (priority : Int) (ok : Bool)
  | kill (pid : Int) (sig : Signal) (ok : Bool)
  | nanosleep (tv_nsec : Int)
  | stdout (m : Message)
  | stderr (m : Message)
  | fflush
  | close_process_group
  | install_handler
  | exit (code : Int)
  deriving DecidableEq

/-- The operating system and the process-group routines, over a world state
`W`. `init_process_group` and `update_process_group` are declared in
`process_group.h`, which is not part of these sources: they are taken as
parameters and return the member list they leave in `pgroup.proclist`. -/
structure Sys (W : Type) where
  getpriority : W → Int
  setpriority : W → Int → Bool × W
  init_process_group : W → Int → Bool → List Process × W
  update_process_group : W → List Process → List Process × W
  kill : W → Int → Signal → Bool × W
  nanosleep : W → Int → W

/-- What a loop over the member list leaves: the list, the world, and the
actions it performed. -/
structure Phase (W : Type) where
  proclist : List Process
  world : W
  events : List Event

/-! ## `quit`, the SIGINT and SIGTERM handler -/

/-- The `for` loop of `quit`: a SIGCONT for every node, the result of `kill`
being ignored. -/
def quit_loop {W : Type} (sys : Sys W) : List Process → W → W × List Event
  | [], w => (w, [])
  | p :: next, w =>
    let k := sys.kill w p.pid Signal.SIGCONT
    let r := quit_loop sys next k.2
    (r.1, Event.kill p.pid Signal.SIGCONT k.1 :: r.2)

/-- The handler `quit`; `proclist` is `none` when `pgroup.proclist` is NULL. -/
def quit {W : Type} (sys : Sys W) (proclist : Option (List Process)) (w : W) : List Event :=
  (match proclist with
    | none => []
    | some l => (quit_loop sys l w).2 ++ [Event.close_process_group])
  ++ [Event.stdout Message.carriage_return, Event.fflush, Event.exit 0]

/-! ## `increase_priority` -/

/-- The `while` loop of `increase_priority`. Every test calls `setpriority`
first; the first argument bounds the number of rounds and is never exhausted
when it starts above `priority - MAX_PRIORITY`. -/
def increase_priority_loop {W : Type} (sys : Sys W) : Nat → Int → W → Int × W × List Event
  | 0, priority, w => (priority, w, [])
  | n + 1, priority, w =>
    let r := sys.setpriority w (priority - 1)
    if r.1 && decide (priority > MAX_PRIORITY) then
      let q := increase_priority_loop sys n (priority - 1) r.2
      (q.1, q.2.1, Event.setpriority (priority - 1) r.1 :: q.2.2)
    else (priority, r.2, [Event.setpriority (priority - 1) r.1])

/-- The function `increase_priority`. -/
def increase_priority {W : Type} (sys : Sys W) (verbose : Bool) (w : W) : W × List Event :=
  let old_priority := sys.getpriority w
  let r := increase_priority_loop sys ((old_priority - MAX_PRIORITY).toNat + 1) old_priority w
  if r.1 ≠ old_priority then
    (r.2.1, r.2.2 ++ (if verbose then [Event.stdout Message.priority_changed] else []))
  else
    (r.2.1, r.2.2 ++ (if verbose then [Event.stdout Message.cannot_change_priority] else []))

/-! ## The loops of `limit_process` over the member list -/

/-- Lines 251-263: the aggregate usage. `pcpu` starts at `-1`; a member with a
negative `cpu_usage` is skipped, any other member sets a negative `pcpu` to `0`
and is added. -/
def aggregate_loop : List Process → Double → Double
  | [], pcpu => pcpu
  | proc :: next, pcpu =>
    if Double.lt proc.cpu_usage (Double.ofInt 0) then aggregate_loop next pcpu
    else
      aggregate_loop next
        (Double.add (if Double.lt pcpu (Double.ofInt 0) then Double.ofInt 0 else pcpu)
          proc.cpu_usage)

/-- The value of `pcpu` after the loop of lines 251-263. -/
def aggregate_usage (proclist : List Process) : Double :=
  aggregate_loop proclist (Double.ofInt (-1))

/-- Modelled from the spec: `delete_node` (list.h) followed by
`remove_process` (process_group.h), neither of which is part of these
sources. Following "on failure, the member is presumed dead and is evicted
from the set", the node at position `i` is unlinked and every other node
stays in place. -/
def delete_node (proclist : List Process) (i : Nat) : List Process :=
  proclist.eraseIdx i

/-- Lines 288-302, the resume loop. `node` is held as its position `i` in
`proclist` together with the chain of nodes from `node` on; `next_node` is
saved before the node is deleted, so after a deletion the cursor stands at the
same position of the shortened list. -/
def resume_loop {W : Type} (sys : Sys W) (verbose : Bool) :
    List Process → Nat → List Process → W → Phase W
  | proclist, _, [], w => ⟨proclist, w, []⟩
  | proclist, i, proc :: next_node, w =>
    let k := sys.kill w proc.pid Signal.SIGCONT
    if k.1 then
      let r := resume_loop sys verbose proclist (i + 1) next_node k.2
      ⟨r.proclist, r.world, Event.kill proc.pid Signal.SIGCONT true :: r.events⟩
    else
      let r := resume_loop sys verbose (delete_node proclist i) i next_node k.2
      ⟨r.proclist, r.world,
        Event.kill proc.pid Signal.SIGCONT false ::
          ((if verbose then [Event.stderr (Message.sigcont_failed proc.pid)] else []) ++ r.events)⟩

/-- Lines 318-332, the stop loop, with the cursor of `resume_loop`. The test
`proc->cpu_usage > minimum_cpu_usage && kill(proc->pid,SIGSTOP)!=0`
evaluates `kill` only when the comparison holds. -/
def stop_loop {W : Type} (sys : Sys W) (minimum_cpu_usage : Double) (verbose : Bool) :
    List Process → Nat → List Process → W → Phase W
  | proclist, _, [], w => ⟨proclist, w, []⟩
  | proclist, i, proc :: next_node, w =>
    if Double.gt proc.cpu_usage minimum_cpu_usage then
      let k := sys.kill w proc.pid Signal.SIGSTOP
      if k.1 then
        let r := stop_loop sys minimum_cpu_usage verbose proclist (i + 1) next_node k.2
        ⟨r.proclist, r.world, Event.kill proc.pid Signal.SIGSTOP true :: r.events⟩
      else
        let r := stop_loop sys minimum_cpu_usage verbose (delete_node proclist i) i next_node k.2
        ⟨r.proclist, r.world,
          Event.kill proc.pid Signal.SIGSTOP false ::
            ((if verbose then [Event.stderr (Message.sigstop_failed proc.pid)] else []) ++ r.events)⟩
    else stop_loop sys minimum_cpu_usage verbose proclist (i + 1) next_node w

/-! ## `limit_process` -/

/-- The variables of `limit_process` that live across iterations; `twork` and
`tsleep` are the `tv_nsec` fields (the `tv_sec` fields stay 0), and the counter
`c` is not bounded. -/
structure State (W : Type) where
  world : W
  proclist : List Process
  workingrate : Double
  twork : Int
  tsleep : Int
  c : Int

/-- The result of one pass through the body of `while (1)`. -/
inductive Step (W : Type) where
  | next (s : State W) (events : List Event)
  | done (s : State W) (events : List Event)
  | undefined

/-- The `if (verbose)` block of lines 278-285. -/
def cycle_report (verbose : Bool) (c : Int) : List Event :=
  if verbose then
    (if c % 200 = 0 then [Event.stdout Message.table_header] else []) ++
    (if c % 10 = 0 ∧ c > 0 then [Event.stdout Message.table_row] else [])
  else []

/-- One pass through the body of `while (1)` (lines 240-336). The two
`gettimeofday` calls and `workingtime`, `delay` only feed an empty `if` and
are left out. -/
def cycle {W : Type} (sys : Sys W) (limit minimum_cpu_usage : Double) (verbose : Bool)
    (s : State W) : Step W :=
  let u := sys.update_process_group s.world s.proclist
  if u.1.length = 0 then
    Step.done { s with world := u.2, proclist := u.1 }
      (if verbose then [Event.stdout Message.no_more_processes] else [])
  else
    match adjust limit s.workingrate (aggregate_usage u.1) with
    | none => Step.undefined
    | some t =>
      let r := resume_loop sys verbose u.1 0 u.1 u.2
      let w1 := sys.nanosleep r.world t.twork
      let ev1 := cycle_report verbose s.c ++ r.events ++ [Event.nanosleep t.twork]
      if t.tsleep > 0 then
        let q := stop_loop sys minimum_cpu_usage verbose r.proclist 0 r.proclist w1
        Step.next ⟨sys.nanosleep q.world t.tsleep, q.proclist, t.workingrate, t.twork, t.tsleep,
            s.c + 1⟩
          (ev1 ++ q.events ++ [Event.nanosleep t.tsleep])
      else
        Step.next ⟨w1, r.proclist, t.workingrate, t.twork, t.tsleep, s.c + 1⟩ ev1

/-- How a run of `limit_process` stands after a bounded number of passes. -/
inductive Outcome (W : Type) where
  | returned (s : State W) (events : List Event)
  | looping (s : State W) (events : List Event)
  | undefined

/-- The loop `while (1)` followed by `close_process_group`, cut after the given
number of passes. -/
def limit_loop {W : Type} (sys : Sys W) (limit minimum_cpu_usage : Double) (verbose : Bool) :
    Nat → State W → List Event → Outcome W
  | 0, s, tr => Outcome.looping s tr
  | n + 1, s, tr =>
    match cycle sys limit minimum_cpu_usage verbose s with
    | Step.done s1 ev => Outcome.returned s1 (tr ++ ev ++ [Event.close_process_group])
    | Step.next s1 ev => limit_loop sys limit minimum_cpu_usage verbose n s1 (tr ++ ev)
    | Step.undefined => Outcome.undefined

/-- The function `limit_process`, cut after `passes` iterations of its loop. -/
def limit_process {W : Type} (sys : Sys W) (verbose : Bool) (pid : Int) (limit : Double)
    (include_children : Bool) (minimum_cpu_usage : Double) (passes : Nat) (w : W) : Outcome W :=
  let p := increase_priority sys verbose w
  let g := sys.init_process_group p.1 pid include_children
  limit_loop sys limit minimum_cpu_usage verbose passes
    ⟨g.2, g.1, Double.ofInt (-1), 0, 0, 0⟩
    (p.2 ++ (if verbose then [Event.stdout Message.members_in_group] else []))

/-! ## The configuration check of `main` (`main.c`, lines 112-148) -/

/-- The variables that the option loop of `main` leaves behind. `command_mode`
is `optind < argc`. -/
structure Arguments where
  exe_ok : Bool
  pid_ok : Bool
  limit_ok : Bool
  pid : Int
  perclimit : Int
  command_mode : Bool

/-- Lines 112-144 of `main`: the message of the first check that fails, or
`none` when "all arguments are ok". `pid_max` is the value of `get_pid_max()`. -/
def main_checks (NCPU pid_max : Int) (a : Arguments) : Option Message :=
  if a.pid_ok && (decide (a.pid ≤ 1) || decide (a.pid ≥ pid_max)) then some Message.invalid_pid
  else if !a.limit_ok then some Message.no_limit
  else
    let limit := Double.div (Double.ofInt a.perclimit) (Double.fin 100)
    if Double.lt limit (Double.ofInt 0) || Double.gt limit (Double.ofInt NCPU) then
      some Message.limit_out_of_range
    else if a.exe_ok.toNat + a.pid_ok.toNat + a.command_mode.toNat = 0 then
      some Message.no_target
    else if a.exe_ok.toNat + a.pid_ok.toNat + a.command_mode.toNat > 1 then
      some Message.several_targets
    else none

/-- The function `print_usage`: the usage text, then `exit(exit_code)`. -/
def print_usage (to_stderr : Bool) (exit_code : Int) : List Event :=
  [if to_stderr then Event.stderr Message.usage else Event.stdout Message.usage,
   Event.exit exit_code]

/-- The function `main` from line 112 on. A failed check writes its message
and calls `print_usage(stderr, 1)`, which exits. Otherwise the handlers for
SIGINT and SIGTERM are installed and the program goes on with `rest` (lines
150-254: the target is started or searched and `limit_process` is called),
which receives the limit and the value of `lazy`. -/
def main (NCPU pid_max : Int) (a : Arguments) ( lazy : Bool)
    (rest : Double → Bool → List Event) : List Event :=
  match main_checks NCPU pid_max a with
  | some m => Event.stderr m :: print_usage true 1
  | none =>
    [Event.install_handler, Event.install_handler] ++
      rest (Double.div (Double.ofInt a.perclimit) (Double.fin 100))
        (if a.pid ≠ 0 then true else lazy)

/-! ## Reading a run -/

namespace Outcome

/-- The state a bounded run stands in, if it is defined. -/
def state {W : Type} : Outcome W → Option (State W)
  | returned s _ => some s
  | looping s _ => some s
  | undefined => none

end Outcome

/-- Whether an action is a signal delivery or a wait. -/
def Event.is_signal_or_wait : Event → Bool
  | Event.kill _ _ _ => true
  | Event.nanosleep _ => true
  | _ => false

/-- The signal deliveries of a trace, in order. -/
def signals : List Event → List (Int × Signal × Bool)
  | [] => []
  | Event.kill pid sig ok :: rest => (pid, sig, ok) :: signals rest
  | _ :: rest => signals rest

/-- The results of the successive `kill` calls that deliver `sig` to the
members of a list, one after the other. -/
def kill_results {W : Type} (sys : Sys W) (sig : Signal) : List Process → W → List Bool
  | [], _ => []
  | p :: next, w => (sys.kill w p.pid sig).1 :: kill_results sys sig next (sys.kill w p.pid sig).2

/-- The world of the scripted system: the member lists that the successive
refreshes will report, and the pids that no signal reaches. -/
structure Script where
  snapshots : List (List Process)
  dead : List Int

/-- A scripted system for concrete runs: `init_process_group` reports the
first scripted member list, each `update_process_group` reports the next one
and moves on (an empty list when the script is used up), `kill` fails exactly
for the scripted dead pids, the priority cannot be changed. -/
def scripted : Sys Script where
  getpriority _ := 0
  setpriority w _ := (false, w)
  init_process_group w _ _ := (w.snapshots.headD [], w)
  update_process_group w _ := (w.snapshots.headD [], ⟨w.snapshots.tail, w.dead⟩)
  kill w pid _ := (decide (pid ∉ w.dead), w)
  nanosleep w _ := w

/-- The reference definition of the timing computation, in the words of the
specification: with an unknown aggregate, `working_rate = limit_fraction` and
`work_duration = slot_length * limit_fraction`; with a known aggregate `a`,
`working_rate = min(working_rate / a * limit_fraction, 1.0)` and
`work_duration = slot_length * working_rate`. The result is the pair of
`working_rate` and `work_duration`. -/
def reference_timing (slot_length limit_fraction working_rate : ℚ)
    (aggregate : Option ℚ) : ℚ × ℚ :=
  match aggregate with
  | none => (limit_fraction, slot_length * limit_fraction)
  | some a =>
    (min (working_rate / a * limit_fraction) 1,
      slot_length * min (working_rate / a * limit_fraction) 1)

/-- The arguments that the interface description accepts: a limit was given
and lies between 0 and 100 times the number of CPUs, exactly one of the three
target selectors is present, and a pid given with `--pid` lies strictly
between 1 and the system's pid maximum. -/
def accepted_arguments (NCPU pid_max : Int) (a : Arguments) : Prop :=
  a.limit_ok = true ∧ 0 ≤ a.perclimit ∧ a.perclimit ≤ 100 * NCPU ∧
    a.exe_ok.toNat + a.pid_ok.toNat + a.command_mode.toNat = 1 ∧
    (a.pid_ok = true → 1 < a.pid ∧ a.pid < pid_max)

instance (NCPU pid_max : Int) (a : Arguments) : Decidable (accepted_arguments NCPU pid_max a) := by
  unfold accepted_arguments
  infer_instance

/-- The member list with the given pids and finite readings; a negative
reading is the sentinel for "no reading yet". -/
def members_of (readings : List (Int × ℚ)) : List Process :=
  readings.map (fun r => ⟨r.1, Double.fin r.2⟩)

/-- The readings that count: those that are not negative. -/
def valid_readings (readings : List (Int × ℚ)) : List ℚ :=
  (readings.filter (fun r => decide (0 ≤ r.2))).map Prod.snd

/-- The aggregate usage in the words of the specification: the sum of
`cpu_usage` over the members with a valid reading, or "unknown" (`none`) if no
member has a valid reading. -/
def reference_aggregate (readings : List (Int × ℚ)) : Option ℚ :=
  if valid_readings readings = [] then none else some (valid_readings readings).sum

/-- Modelled from the spec: `update_process_group` (process_group.h) is not
part of these sources. Following "Refresh the Member Set (adds new
descendants if enabled, updates `cpu_usage`, drops members the Snapshot
Provider no longer reports)", a Member being "created when first observed by
the Snapshot Provider" with "a sentinel unknown value on the very first
observation", the refreshed list holds exactly the reported processes in the
reported order; one that was in the list before keeps its reported usage, one
that was not is created with the sentinel `-1`. -/
def refresh (proclist reported : List Process) : List Process :=
  reported.map
    (fun p => if p.pid ∈ proclist.map Process.pid then p else ⟨p.pid, Double.ofInt (-1)⟩)

/-- A system whose `update_process_group` is the `refresh` of the member list
with what `enumerate_group` reports in the current world; everything else is
taken from `sys`. -/
def observing {W : Type} (sys : Sys W) (enumerate_group : W → List Process × W) : Sys W :=
  { sys with
    update_process_group := fun w proclist =>
      (refresh proclist (enumerate_group w).1, (enumerate_group w).2) }

/-- The report of the scripted world: the next scripted list. -/
def enumerate_script (w : Script) : List Process × Script :=
  (w.snapshots.headD [], ⟨w.snapshots.tail, w.dead⟩)

/-! ## Facts about the arithmetic -/

namespace Double

theorem trunc_of_nonneg {q : ℚ} (h : 0 ≤ q) : trunc q = ⌊q⌋ := by
  simp [trunc, h]

theorem trunc_nonneg {q : ℚ} (h : 0 ≤ q) : 0 ≤ trunc q := by
  rw [trunc_of_nonneg h]
  exact Int.floor_nonneg.mpr h

theorem trunc_le_of_le {q : ℚ} {b : Int} (h0 : 0 ≤ q) (h : q ≤ (b : ℚ)) : trunc q ≤ b := by
  rw [trunc_of_nonneg h0]
  exact Int.floor_le_iff.mpr (lt_of_le_of_lt h (by exact_mod_cast Int.lt_succ b))

theorem toLong_fin {q : ℚ} (h0 : 0 ≤ q) (h : q ≤ 2 ^ 62) : toLong (fin q) = some (trunc q) := by
  have h1 : 0 ≤ trunc q := trunc_nonneg h0
  have h2 : trunc q ≤ 2 ^ 62 := trunc_le_of_le h0 (by exact_mod_cast h)
  have h3 : LONG_MIN ≤ trunc q := by
    unfold LONG_MIN
    omega
  have h4 : trunc q ≤ LONG_MAX := by
    unfold LONG_MAX
    omega
  simp [toLong, h3, h4]

theorem lt_fin_fin (a b : ℚ) : lt (fin a) (fin b) = decide (a < b) := rfl

end Double

theorem MIN_fin (a b : ℚ) : MIN (Double.fin a) (Double.fin b) = Double.fin (min a b) := by
  unfold MIN
  rw [Double.lt_fin_fin]
  by_cases h : a < b
  · simp [h, min_eq_left (le_of_lt h)]
  · simp [h, min_eq_right (not_lt.mp h)]

theorem long_sub_slot {t : Int} (h0 : 0 ≤ t) (h : t ≤ 2 ^ 62) :
    long_sub (TIME_SLOT * 1000) t = some (100000000 - t) := by
  have h3 : Double.LONG_MIN ≤ TIME_SLOT * 1000 - t := by
    unfold Double.LONG_MIN TIME_SLOT
    omega
  have h4 : TIME_SLOT * 1000 - t ≤ Double.LONG_MAX := by
    unfold Double.LONG_MAX TIME_SLOT
    omega
  simp only [long_sub, h3, h4, and_self, if_true]
  simp [TIME_SLOT]

/-- The first branch of the timing computation: an aggregate below zero (no
reading) seeds `workingrate` with the limit. -/
theorem adjust_unknown (l : ℚ) (workingrate pcpu : Double)
    (hp : Double.lt pcpu (Double.ofInt 0) = true) (h0 : 0 ≤ l) (h1 : l ≤ 2 ^ 32) :
    adjust (Double.fin l) workingrate pcpu =
      some ⟨Double.fin l, Double.fin l, Double.trunc (100000000 * l),
        100000000 - Double.trunc (100000000 * l)⟩ := by
  have q0 : (0 : ℚ) ≤ 100000000 * l := by positivity
  have q1 : (100000000 : ℚ) * l ≤ 2 ^ 62 := by
    calc (100000000 : ℚ) * l ≤ 100000000 * 2 ^ 32 := by gcongr
      _ ≤ 2 ^ 62 := by norm_num
  have t0 := Double.trunc_nonneg q0
  have t1 : Double.trunc (100000000 * l) ≤ 2 ^ 62 :=
    Double.trunc_le_of_le q0 (by exact_mod_cast q1)
  have m : Double.mul (Double.mul (Double.ofInt TIME_SLOT) (Double.fin l)) (Double.ofInt 1000) =
      Double.fin (100000000 * l) := by
    simp only [Double.ofInt, Double.mul, TIME_SLOT]
    congr 1
    push_cast
    ring
  unfold adjust
  rw [if_pos hp, m, Double.toLong_fin q0 q1]
  dsimp only
  rw [long_sub_slot t0 t1]

/-- The second branch of the timing computation for a finite non-negative
aggregate and finite `workingrate`, when the corrected rate is finite: the
general shape, with the new rate `r`. -/
theorem adjust_known_of_rate (limit workingrate pcpu : Double) (r : ℚ)
    (hp : Double.lt pcpu (Double.ofInt 0) = false)
    (hr : MIN (Double.mul (Double.div workingrate pcpu) limit) (Double.ofInt 1) = Double.fin r)
    (h0 : 0 ≤ r) (h1 : r ≤ 1) :
    adjust limit workingrate pcpu =
      some ⟨pcpu, Double.fin r, Double.trunc (100000000 * r),
        100000000 - Double.trunc (100000000 * r)⟩ := by
  have q0 : (0 : ℚ) ≤ 100000000 * r := by positivity
  have q1 : (100000000 : ℚ) * r ≤ 2 ^ 62 := by
    calc (100000000 : ℚ) * r ≤ 100000000 * 1 := by gcongr
      _ ≤ 2 ^ 62 := by norm_num
  have t0 := Double.trunc_nonneg q0
  have t1 : Double.trunc (100000000 * r) ≤ 2 ^ 62 :=
    Double.trunc_le_of_le q0 (by exact_mod_cast q1)
  have m : Double.mul (Double.ofInt (TIME_SLOT * 1000)) (Double.fin r) =
      Double.fin (100000000 * r) := by
    simp only [Double.ofInt, Double.mul, TIME_SLOT]
    congr 1
  unfold adjust
  rw [if_neg (by simp [hp])]
  dsimp only
  rw [hr, m, Double.toLong_fin q0 q1]
  dsimp only
  rw [long_sub_slot t0 t1]

/-- The corrected rate for a positive aggregate. -/
theorem rate_known (l w a : ℚ) (ha : 0 < a) :
    MIN (Double.mul (Double.div (Double.fin w) (Double.fin a)) (Double.fin l)) (Double.ofInt 1) =
      Double.fin (min (w / a * l) 1) := by
  simp [Double.div, Double.mul, Double.ofInt, ne_of_gt ha, MIN_fin]

/-- The corrected rate for an aggregate of exactly zero, with a positive
previous rate and a positive limit: the quotient is `+inf`, and `MIN` picks 1. -/
theorem rate_zero (l w : ℚ) (hl : 0 < l) (hw : 0 < w) :
    MIN (Double.mul (Double.div (Double.fin w) (Double.fin 0)) (Double.fin l)) (Double.ofInt 1) =
      Double.fin 1 := by
  simp [Double.div, Double.mul, Double.ofInt, Double.signedInf, hl, hw, MIN, Double.lt]

/-! ## Facts about the loops over the member list -/

theorem delete_node_cursor (pre : List Process) (x : Process) (next : List Process) :
    delete_node (pre ++ x :: next) pre.length = pre ++ next := by
  unfold delete_node
  rw [List.eraseIdx_eq_take_drop_succ]
  simp

theorem signals_append (l1 l2 : List Event) : signals (l1 ++ l2) = signals l1 ++ signals l2 := by
  induction l1 with
  | nil => rfl
  | cons e l1 ih => cases e <;> simp [signals, ih]

theorem signals_report (verbose : Bool) (m : Message) :
    signals (if verbose then [Event.stderr m] else []) = [] := by
  cases verbose <;> rfl

/-- The members that a loop of deliveries keeps: those whose `kill` succeeded. -/
theorem resume_loop_spec {W : Type} (sys : Sys W) (verbose : Bool) :
    ∀ (rest pre : List Process) (w : W),
      (resume_loop sys verbose (pre ++ rest) pre.length rest w).proclist =
          pre ++ ((rest.zip (kill_results sys Signal.SIGCONT rest w)).filter
            (fun x => x.2)).map Prod.fst ∧
        signals (resume_loop sys verbose (pre ++ rest) pre.length rest w).events =
          List.zipWith (fun p ok => (p.pid, Signal.SIGCONT, ok)) rest
            (kill_results sys Signal.SIGCONT rest w) := by
  intro rest
  induction rest with
  | nil => intro pre w; simp [resume_loop, kill_results, signals]
  | cons proc next ih =>
    intro pre w
    cases h : (sys.kill w proc.pid Signal.SIGCONT).1 with
    | true =>
      have e1 : pre ++ proc :: next = (pre ++ [proc]) ++ next := by simp
      have e2 : pre.length + 1 = (pre ++ [proc]).length := by simp
      have := ih (pre ++ [proc]) (sys.kill w proc.pid Signal.SIGCONT).2
      rw [← e1, ← e2] at this
      simp only [resume_loop, h, if_true, kill_results, signals]
      simp [this.1, this.2]
    | false =>
      have := ih pre (sys.kill w proc.pid Signal.SIGCONT).2
      simp only [resume_loop, h, kill_results, signals, delete_node_cursor, signals_append,
        signals_report]
      simp [this.1, this.2]

theorem Double.lt_asymm {a b : Double} (h : Double.lt a b = true) : Double.lt b a = false := by
  cases a <;> cases b <;> simp_all [Double.lt]
  exact le_of_lt h

theorem kill_results_length {W : Type} (sys : Sys W) (sig : Signal) :
    ∀ (l : List Process) (w : W), (kill_results sys sig l w).length = l.length := by
  intro l
  induction l with
  | nil => intro w; rfl
  | cons p next ih => intro w; simp [kill_results, ih]

/-- Every member of the list is addressed by the deliveries. -/
theorem delivery_mem {W : Type} (sys : Sys W) (sig : Signal) :
    ∀ (l : List Process) (w : W) (p : Process), p ∈ l →
      ∃ ok, (p.pid, sig, ok) ∈
        List.zipWith (fun (p : Process) (ok : Bool) => (p.pid, sig, ok)) l
          (kill_results sys sig l w) := by
  intro l
  induction l with
  | nil => intro w p hp; simp at hp
  | cons x next ih =>
    intro w p hp
    rcases List.mem_cons.mp hp with h | h
    · subst h
      exact ⟨(sys.kill w p.pid sig).1, by simp [kill_results]⟩
    · obtain ⟨ok, hok⟩ := ih (sys.kill w x.pid sig).2 p h
      exact ⟨ok, by simp only [kill_results, List.zipWith_cons_cons]; exact List.mem_cons_of_mem _ hok⟩

/-- The deliveries carry no other signal. -/
theorem delivery_signal {W : Type} (sys : Sys W) (sig : Signal) :
    ∀ (l : List Process) (w : W) (e : Int × Signal × Bool),
      e ∈ List.zipWith (fun (p : Process) (ok : Bool) => (p.pid, sig, ok)) l
          (kill_results sys sig l w) → e.2.1 = sig := by
  intro l
  induction l with
  | nil => intro w e he; simp [kill_results] at he
  | cons x next ih =>
    intro w e he
    simp only [kill_results, List.zipWith_cons_cons, List.mem_cons] at he
    rcases he with h | h
    · rw [h]
    · exact ih _ e h

/-- The resume loop keeps only members of the list it was given. -/
theorem resume_loop_subset {W : Type} (sys : Sys W) (verbose : Bool) (l : List Process) (w : W)
    (p : Process) (hp : p ∈ (resume_loop sys verbose l 0 l w).proclist) : p ∈ l := by
  have h := (resume_loop_spec sys verbose l [] w).1
  simp only [List.nil_append, List.length_nil] at h
  rw [h] at hp
  obtain ⟨x, hx, rfl⟩ := List.mem_map.mp hp
  exact (List.of_mem_zip (List.mem_filter.mp hx).1).1

/-- The stop loop signals only members above the floor, and only with SIGSTOP. -/
theorem stop_loop_signals {W : Type} (sys : Sys W) (minimum_cpu_usage : Double)
    (verbose : Bool) :
    ∀ (rest proclist : List Process) (i : Nat) (w : W) (e : Int × Signal × Bool),
      e ∈ signals (stop_loop sys minimum_cpu_usage verbose proclist i rest w).events →
        ∃ p ∈ rest, Double.gt p.cpu_usage minimum_cpu_usage = true ∧ e.1 = p.pid ∧
          e.2.1 = Signal.SIGSTOP := by
  intro rest
  induction rest with
  | nil => intro proclist i w e he; simp [stop_loop, signals] at he
  | cons proc next ih =>
    intro proclist i w e he
    by_cases hg : Double.gt proc.cpu_usage minimum_cpu_usage = true
    · cases hk : (sys.kill w proc.pid Signal.SIGSTOP).1 with
      | true =>
        simp only [stop_loop, hg, hk, if_true, signals, List.mem_cons] at he
        rcases he with h | h
        · exact ⟨proc, List.mem_cons_self _ _, hg, by rw [h], by rw [h]⟩
        · obtain ⟨p, hp, h1⟩ := ih _ _ _ e h
          exact ⟨p, List.mem_cons_of_mem _ hp, h1⟩
      | false =>
        simp only [stop_loop, hg, hk, if_true, signals, signals_append, signals_report,
          List.nil_append, List.mem_cons] at he
        rcases he with h | h
        · exact ⟨proc, List.mem_cons_self _ _, hg, by rw [h], by rw [h]⟩
        · obtain ⟨p, hp, h1⟩ := ih _ _ _ e h
          exact ⟨p, List.mem_cons_of_mem _ hp, h1⟩
    · simp only [stop_loop, hg] at he
      obtain ⟨p, hp, h1⟩ := ih _ _ _ e he
      exact ⟨p, List.mem_cons_of_mem _ hp, h1⟩

theorem signals_cycle_report (verbose : Bool) (c : Int) : signals (cycle_report verbose c) = [] := by
  unfold cycle_report
  cases verbose
  · rfl
  · simp only [if_true, signals_append]
    split <;> split <;> rfl

/-- The signals of one pass: those of the resume loop, then, if the sleep slice
is positive, those of the stop loop run on what the resume loop left. -/
theorem cycle_signals {W : Type} (sys : Sys W) (limit minimum_cpu_usage : Double)
    (verbose : Bool) (s : State W) (t : Timing)
    (hne : (sys.update_process_group s.world s.proclist).1 ≠ [])
    (ht : adjust limit s.workingrate
      (aggregate_usage (sys.update_process_group s.world s.proclist).1) = some t) :
    ∃ s1 ev, cycle sys limit minimum_cpu_usage verbose s = Step.next s1 ev ∧
      s1.workingrate = t.workingrate ∧ s1.twork = t.twork ∧ s1.tsleep = t.tsleep ∧
      signals ev =
        signals (resume_loop sys verbose (sys.update_process_group s.world s.proclist).1 0
          (sys.update_process_group s.world s.proclist).1
          (sys.update_process_group s.world s.proclist).2).events ++
        (if t.tsleep > 0 then
          signals (stop_loop sys minimum_cpu_usage verbose
            (resume_loop sys verbose (sys.update_process_group s.world s.proclist).1 0
              (sys.update_process_group s.world s.proclist).1
              (sys.update_process_group s.world s.proclist).2).proclist 0
            (resume_loop sys verbose (sys.update_process_group s.world s.proclist).1 0
              (sys.update_process_group s.world s.proclist).1
              (sys.update_process_group s.world s.proclist).2).proclist
            (sys.nanosleep
              (resume_loop sys verbose (sys.update_process_group s.world s.proclist).1 0
                (sys.update_process_group s.world s.proclist).1
                (sys.update_process_group s.world s.proclist).2).world t.twork)).events
        else []) := by
  have hlen : ¬ (sys.update_process_group s.world s.proclist).1.length = 0 := by
    simpa [List.length_eq_zero] using hne
  unfold cycle
  simp only [hlen, if_false, ht]
  by_cases hs : t.tsleep > 0
  · simp only [hs, if_true]
    refine ⟨_, _, rfl, rfl, rfl, rfl, ?_⟩
    simp [signals_append, signals_cycle_report, signals]
  · simp only [hs, if_false]
    refine ⟨_, _, rfl, rfl, rfl, rfl, ?_⟩
    simp [signals_append, signals_cycle_report, signals]

/-- The stop loop keeps only members of the list it was given. -/
theorem stop_loop_spec {W : Type} (sys : Sys W) (minimum_cpu_usage : Double) (verbose : Bool) :
    ∀ (rest pre : List Process) (w : W),
      ∀ x ∈ (stop_loop sys minimum_cpu_usage verbose (pre ++ rest) pre.length rest w).proclist,
        x ∈ pre ++ rest := by
  intro rest
  induction rest with
  | nil => intro pre w x hx; simpa [stop_loop] using hx
  | cons proc next ih =>
    intro pre w x hx
    have e1 : pre ++ proc :: next = (pre ++ [proc]) ++ next := by simp
    have e2 : pre.length + 1 = (pre ++ [proc]).length := by simp
    by_cases hg : Double.gt proc.cpu_usage minimum_cpu_usage = true
    · cases hk : (sys.kill w proc.pid Signal.SIGSTOP).1 with
      | true =>
        simp only [stop_loop, hg, hk, if_true] at hx
        rw [e1, e2] at hx
        rw [e1]
        exact ih _ _ x hx
      | false =>
        simp only [stop_loop, hg, hk, if_true, delete_node_cursor] at hx
        have := ih _ _ x hx
        rcases List.mem_append.mp this with h | h
        · exact List.mem_append_left _ h
        · exact List.mem_append_right _ (List.mem_cons_of_mem _ h)
    · simp only [stop_loop, hg] at hx
      rw [e1, e2] at hx
      rw [e1]
      exact ih _ _ x hx

theorem stop_loop_subset {W : Type} (sys : Sys W) (minimum_cpu_usage : Double) (verbose : Bool)
    (l : List Process) (w : W) (x : Process)
    (hx : x ∈ (stop_loop sys minimum_cpu_usage verbose l 0 l w).proclist) : x ∈ l := by
  have := stop_loop_spec sys minimum_cpu_usage verbose l [] w x
  simpa using this hx

/-- A delivery in the list of deliveries addresses a pid of the member list. -/
theorem delivery_pid (sig : Signal) :
    ∀ (l : List Process) (bs : List Bool) (e : Int × Signal × Bool),
      e ∈ List.zipWith (fun (p : Process) (ok : Bool) => (p.pid, sig, ok)) l bs →
        e.1 ∈ l.map Process.pid := by
  intro l
  induction l with
  | nil => intro bs e he; simp at he
  | cons a l ih =>
    intro bs e he
    cases bs with
    | nil => simp at he
    | cons b bs =>
      simp only [List.zipWith_cons_cons, List.mem_cons] at he
      rcases he with h | h
      · rw [h]; simp
      · exact List.mem_map.mpr (by
          obtain ⟨y, hy, hye⟩ := List.mem_map.mp (ih bs e h)
          exact ⟨y, List.mem_cons_of_mem _ hy, hye⟩)

/-- In a list with distinct pids, no member that is kept carries the pid of a
failed delivery. -/
theorem kept_exclude_failed (sig : Signal) (pid : Int) :
    ∀ (l : List Process) (bs : List Bool), (l.map Process.pid).Nodup →
      (pid, sig, false) ∈ List.zipWith (fun (p : Process) (ok : Bool) => (p.pid, sig, ok)) l bs →
        ∀ x ∈ ((l.zip bs).filter (fun y => y.2)).map Prod.fst, x.pid ≠ pid := by
  intro l
  induction l with
  | nil => intro bs _ he; simp at he
  | cons a l ih =>
    intro bs hnd he x hx
    cases bs with
    | nil => simp at he
    | cons b bs =>
      have hnd1 : a.pid ∉ l.map Process.pid ∧ (l.map Process.pid).Nodup := by
        rw [List.map_cons] at hnd
        exact List.nodup_cons.mp hnd
      simp only [List.zipWith_cons_cons, List.mem_cons] at he
      rcases he with h | h
      · -- the head is the failed delivery
        have hb : b = false := by
          have := congrArg (fun e : Int × Signal × Bool => e.2.2) h
          simpa using this.symm
        have hp : pid = a.pid := by
          have := congrArg (fun e : Int × Signal × Bool => e.1) h
          simpa using this
        subst hb
        have hx1 : x ∈ ((l.zip bs).filter (fun y => y.2)).map Prod.fst := by
          simpa [List.zip_cons_cons, List.filter_cons] using hx
        obtain ⟨y, hy, hyx⟩ := List.mem_map.mp hx1
        have hyl : y.1 ∈ l := (List.of_mem_zip (List.mem_filter.mp hy).1).1
        intro hpid
        exact hnd1.1 (List.mem_map.mpr ⟨y.1, hyl, by rw [hyx, hpid, hp]⟩)
      · -- the failed delivery is further on
        have hin : pid ∈ l.map Process.pid := delivery_pid sig l bs _ h
        cases b with
        | false =>
          have hx1 : x ∈ ((l.zip bs).filter (fun y => y.2)).map Prod.fst := by
            simpa [List.zip_cons_cons, List.filter_cons] using hx
          exact ih bs hnd1.2 h x hx1
        | true =>
          have hx1 : x = a ∨ x ∈ ((l.zip bs).filter (fun y => y.2)).map Prod.fst := by
            simpa [List.zip_cons_cons, List.filter_cons] using hx
          rcases hx1 with hxa | hx1
          · intro hpid
            apply hnd1.1
            rw [← hxa, hpid]
            exact hin
          · exact ih bs hnd1.2 h x hx1

/-- Members without a reading do not change the aggregate. -/
theorem aggregate_loop_filter (keep : Process → Bool) :
    ∀ (l : List Process) (pcpu : Double),
      (∀ p ∈ l, keep p = false → Double.lt p.cpu_usage (Double.ofInt 0) = true) →
        aggregate_loop l pcpu = aggregate_loop (l.filter keep) pcpu := by
  intro l
  induction l with
  | nil => intro pcpu _; rfl
  | cons a l ih =>
    intro pcpu h
    have hl : ∀ p ∈ l, keep p = false → Double.lt p.cpu_usage (Double.ofInt 0) = true :=
      fun p hp => h p (List.mem_cons_of_mem _ hp)
    cases hk : keep a with
    | true =>
      simp only [List.filter_cons, hk, if_true, aggregate_loop]
      split
      · exact ih _ hl
      · exact ih _ hl
    | false =>
      have ha := h a (List.mem_cons_self _ _) hk
      simp only [List.filter_cons, hk, aggregate_loop, ha, if_true]
      simpa using ih pcpu hl

/-- A process that the refresh reports and that was not in the list before has
no reading. -/
theorem refresh_new_unknown (proclist reported : List Process) (pid : Int)
    (h : pid ∉ proclist.map Process.pid) :
    ∀ p ∈ refresh proclist reported, p.pid = pid →
      Double.lt p.cpu_usage (Double.ofInt 0) = true := by
  intro p hp hpid
  unfold refresh at hp
  obtain ⟨q, _, rfl⟩ := List.mem_map.mp hp
  by_cases hq : q.pid ∈ proclist.map Process.pid
  · rw [if_pos hq] at hpid
    exact absurd (hpid ▸ hq) h
  · rw [if_neg hq]
    simp [Double.lt, Double.ofInt]

/-- The member list that a pass hands on holds only members that the resume
loop of the pass kept. -/
theorem cycle_keeps_resumed {W : Type} (sys : Sys W) (limit minimum_cpu_usage : Double)
    (verbose : Bool) (s : State W) (t : Timing)
    (hne : (sys.update_process_group s.world s.proclist).1 ≠ [])
    (ht : adjust limit s.workingrate
      (aggregate_usage (sys.update_process_group s.world s.proclist).1) = some t) :
    ∃ s1 ev, cycle sys limit minimum_cpu_usage verbose s = Step.next s1 ev ∧
      (∀ e ∈ signals ev, e.2.1 = Signal.SIGCONT →
        e ∈ signals (resume_loop sys verbose (sys.update_process_group s.world s.proclist).1 0
          (sys.update_process_group s.world s.proclist).1
          (sys.update_process_group s.world s.proclist).2).events) ∧
      ∀ x ∈ s1.proclist,
        x ∈ (resume_loop sys verbose (sys.update_process_group s.world s.proclist).1 0
          (sys.update_process_group s.world s.proclist).1
          (sys.update_process_group s.world s.proclist).2).proclist := by
  have hlen : ¬ (sys.update_process_group s.world s.proclist).1.length = 0 := by
    simpa [List.length_eq_zero] using hne
  unfold cycle
  simp only [hlen, if_false, ht]
  by_cases hs : t.tsleep > 0
  · simp only [hs, if_true]
    refine ⟨_, _, rfl, ?_, ?_⟩
    · intro e he hsig
      simp only [signals_append, signals_cycle_report, signals, List.nil_append,
        List.append_nil, List.mem_append] at he
      rcases he with h | h
      · exact h
      · obtain ⟨_, _, _, _, h2⟩ := stop_loop_signals sys minimum_cpu_usage verbose _ _ _ _ e h
        rw [h2] at hsig
        exact absurd hsig (by decide)
    · intro x hx
      exact stop_loop_subset sys minimum_cpu_usage verbose _ _ x hx
  · simp only [hs, if_false]
    refine ⟨_, _, rfl, ?_, ?_⟩
    · intro e he _
      simpa [signals_append, signals_cycle_report, signals] using he
    · intro x hx
      exact hx

/-! ## Runs of the scripted system -/

theorem resume_loop_scripted (verbose : Bool) :
    ∀ (rest proclist : List Process) (i : Nat) (sn : List (List Process)),
      (resume_loop scripted verbose proclist i rest ⟨sn, []⟩).proclist = proclist ∧
        (resume_loop scripted verbose proclist i rest ⟨sn, []⟩).world = ⟨sn, []⟩ := by
  intro rest
  induction rest with
  | nil => intro proclist i sn; simp [resume_loop]
  | cons proc next ih =>
    intro proclist i sn
    have := ih proclist (i + 1) sn
    simpa [resume_loop, scripted] using this

theorem stop_loop_scripted (minimum_cpu_usage : Double) (verbose : Bool) :
    ∀ (rest proclist : List Process) (i : Nat) (sn : List (List Process)),
      (stop_loop scripted minimum_cpu_usage verbose proclist i rest ⟨sn, []⟩).proclist = proclist ∧
        (stop_loop scripted minimum_cpu_usage verbose proclist i rest ⟨sn, []⟩).world =
          ⟨sn, []⟩ := by
  intro rest
  induction rest with
  | nil => intro proclist i sn; simp [stop_loop]
  | cons proc next ih =>
    intro proclist i sn
    have := ih proclist (i + 1) sn
    by_cases h : Double.gt proc.cpu_usage minimum_cpu_usage = true
    · simpa [stop_loop, scripted, h] using this
    · simpa [stop_loop, h] using this

/-- One pass of the scripted system in which no pid is dead: the state it
reaches is given by the timing computation on the reported member list. -/
theorem scripted_pass (limit minimum_cpu_usage : Double) (verbose : Bool)
    (l : List Process) (sn : List (List Process)) (s : State Script) (t : Timing)
    (hw : s.world = ⟨l :: sn, []⟩) (hl : l ≠ [])
    (ht : adjust limit s.workingrate (aggregate_usage l) = some t) :
    ∃ ev, cycle scripted limit minimum_cpu_usage verbose s =
      Step.next ⟨⟨sn, []⟩, l, t.workingrate, t.twork, t.tsleep, s.c + 1⟩ ev := by
  have hu : scripted.update_process_group s.world s.proclist = (l, ⟨sn, []⟩) := by
    simp [scripted, hw]
  have hlen : ¬ l.length = 0 := by
    simpa [List.length_eq_zero] using hl
  have r := resume_loop_scripted verbose l l 0 sn
  have q := stop_loop_scripted minimum_cpu_usage verbose l l 0 sn
  unfold cycle
  simp only [hu, hlen, if_false, ht]
  by_cases hs : t.tsleep > 0
  · have e : ∀ n, scripted.nanosleep ⟨sn, []⟩ n = ⟨sn, []⟩ := fun _ => rfl
    simp only [hs, if_true, r.1, r.2, e, q.1, q.2]
    exact ⟨_, rfl⟩
  · simp only [hs, if_false, r.1, r.2]
    exact ⟨_, rfl⟩

theorem limit_loop_next {W : Type} (sys : Sys W) (limit minimum_cpu_usage : Double)
    (verbose : Bool) (n : Nat) (s s1 : State W) (tr ev : List Event)
    (h : cycle sys limit minimum_cpu_usage verbose s = Step.next s1 ev) :
    limit_loop sys limit minimum_cpu_usage verbose (n + 1) s tr =
      limit_loop sys limit minimum_cpu_usage verbose n s1 (tr ++ ev) := by
  simp [limit_loop, h]

theorem limit_process_scripted (verbose : Bool) (pid : Int) (limit : Double)
    (include_children : Bool) (minimum_cpu_usage : Double) (passes : Nat) (w : Script) :
    ∃ tr, limit_process scripted verbose pid limit include_children minimum_cpu_usage passes w =
      limit_loop scripted limit minimum_cpu_usage verbose passes
        ⟨w, w.snapshots.headD [], Double.ofInt (-1), 0, 0, 0⟩ tr :=
  ⟨_, rfl⟩

theorem limit_loop_state {W : Type} (sys : Sys W) (limit minimum_cpu_usage : Double)
    (verbose : Bool) :
    ∀ (n : Nat) (s : State W) (tr tr1 : List Event),
      (limit_loop sys limit minimum_cpu_usage verbose n s tr).state =
        (limit_loop sys limit minimum_cpu_usage verbose n s tr1).state := by
  intro n
  induction n with
  | zero => intro s tr tr1; rfl
  | succ n ih =>
    intro s tr tr1
    unfold limit_loop
    cases h : cycle sys limit minimum_cpu_usage verbose s with
    | next s1 ev => exact ih s1 _ _
    | done s1 ev => rfl
    | undefined => rfl

/-- A run of the scripted system advances by one pass. -/
theorem scripted_run (limit minimum_cpu_usage : Double) (verbose : Bool) (n : Nat)
    (l : List Process) (sn : List (List Process)) (s : State Script) (t : Timing)
    (tr : List Event) (hw : s.world = ⟨l :: sn, []⟩) (hl : l ≠ [])
    (ht : adjust limit s.workingrate (aggregate_usage l) = some t) :
    (limit_loop scripted limit minimum_cpu_usage verbose (n + 1) s tr).state =
      (limit_loop scripted limit minimum_cpu_usage verbose n
        ⟨⟨sn, []⟩, l, t.workingrate, t.twork, t.tsleep, s.c + 1⟩ []).state := by
  obtain ⟨ev, h⟩ := scripted_pass limit minimum_cpu_usage verbose l sn s t hw hl ht
  rw [limit_loop_next scripted limit minimum_cpu_usage verbose n s _ tr ev h]
  exact limit_loop_state scripted limit minimum_cpu_usage verbose n _ _ _

theorem limit_process_scripted_state (verbose : Bool) (pid : Int) (limit : Double)
    (include_children : Bool) (minimum_cpu_usage : Double) (passes : Nat) (w : Script) :
    (limit_process scripted verbose pid limit include_children minimum_cpu_usage passes w).state =
      (limit_loop scripted limit minimum_cpu_usage verbose passes
        ⟨w, w.snapshots.headD [], Double.ofInt (-1), 0, 0, 0⟩ []).state := by
  obtain ⟨tr, h⟩ := limit_process_scripted verbose pid limit include_children
    minimum_cpu_usage passes w
  rw [h]
  exact limit_loop_state scripted limit minimum_cpu_usage verbose passes _ _ _

theorem Double.trunc_eq {q : ℚ} {z : Int} (h0 : 0 ≤ q) (h1 : (z : ℚ) ≤ q) (h2 : q < z + 1) :
    Double.trunc q = z := by
  rw [Double.trunc_of_nonneg h0]
  exact Int.floor_eq_iff.mpr ⟨h1, h2⟩

theorem aggregate_usage_single_unknown (pid : Int) :
    aggregate_usage [⟨pid, Double.ofInt (-1)⟩] = Double.ofInt (-1) := by
  simp [aggregate_usage, aggregate_loop, Double.lt, Double.ofInt]

theorem aggregate_usage_single_known (pid : Int) (u : ℚ) (h : 0 ≤ u) :
    aggregate_usage [⟨pid, Double.fin u⟩] = Double.fin u := by
  simp [aggregate_usage, aggregate_loop, Double.lt, Double.ofInt, Double.add, h]

/-- The limit that `main` computes from `perclimit`. -/
theorem limit_of_perclimit (perclimit : Int) :
    Double.div (Double.ofInt perclimit) (Double.fin 100) = Double.fin ((perclimit : ℚ) / 100) := by
  simp only [Double.div, Double.ofInt]
  rw [if_neg (by norm_num)]

/-- The conversion to `long` moves a non-negative value by less than 1. -/
theorem Double.trunc_near {q : ℚ} (h0 : 0 ≤ q) :
    |((Double.trunc q : Int) : ℚ) - q| < 1 := by
  rw [Double.trunc_of_nonneg h0, abs_lt]
  constructor
  · linarith [Int.lt_floor_add_one q]
  · linarith [Int.floor_le q]

/-- The band of the amended C4 leaves room for the rounding of the product:
if the value that is converted is within 3/4 of the exact product, the
converted value is still less than 2 away from the exact product. -/
theorem Double.trunc_near_of_close {x y : ℚ} (h0 : 0 ≤ y) (h : |y - x| ≤ 3 / 4) :
    |((Double.trunc y : Int) : ℚ) - x| < 2 := by
  have h1 := Double.trunc_near h0
  rw [abs_lt] at h1 ⊢
  rw [abs_le] at h
  constructor <;> linarith [h1.1, h1.2, h.1, h.2]

theorem limit_150_percent : Double.div (Double.ofInt 150) (Double.fin 100) = Double.fin (3 / 2) := by
  simp [Double.div, Double.ofInt]
  norm_num

/-- The timing computation at limit 1.5 with no reading. -/
theorem adjust_limit_150_percent (workingrate : Double) :
    adjust (Double.fin (3 / 2)) workingrate (Double.ofInt (-1)) =
      some ⟨Double.fin (3 / 2), Double.fin (3 / 2), 150000000, -50000000⟩ := by
  have h := adjust_unknown (3 / 2) workingrate (Double.ofInt (-1))
    (by simp [Double.lt, Double.ofInt]) (by norm_num) (by norm_num)
  have e : Double.trunc (100000000 * (3 / 2)) = 150000000 :=
    Double.trunc_eq (by norm_num) (by norm_num) (by norm_num)
  rw [h, e]
  rfl

/-- The second branch of the timing computation for a positive aggregate, a
non-negative previous rate and a non-negative limit. -/
theorem adjust_known (l w a : ℚ) (hl : 0 ≤ l) (hw : 0 ≤ w) (ha : 0 < a) :
    adjust (Double.fin l) (Double.fin w) (Double.fin a) =
      some ⟨Double.fin a, Double.fin (min (w / a * l) 1),
        Double.trunc (100000000 * min (w / a * l) 1),
        100000000 - Double.trunc (100000000 * min (w / a * l) 1)⟩ := by
  have h0 : 0 ≤ min (w / a * l) 1 := le_min (by positivity) (by norm_num)
  exact adjust_known_of_rate _ _ _ _
    (by simp [Double.lt, Double.ofInt, le_of_lt ha]) (rate_known l w a ha) h0 (min_le_right _ _)

/-- The second branch of the timing computation for an aggregate of exactly
zero, with a positive previous rate and a positive limit. -/
theorem adjust_zero (l w : ℚ) (hl : 0 < l) (hw : 0 < w) :
    adjust (Double.fin l) (Double.fin w) (Double.fin 0) =
      some ⟨Double.fin 0, Double.fin 1, 100000000, 0⟩ := by
  have h := adjust_known_of_rate (Double.fin l) (Double.fin w) (Double.fin 0) 1
    (by simp [Double.lt, Double.ofInt]) (rate_zero l w hl hw) (by norm_num) (by norm_num)
  have e : Double.trunc (100000000 * 1) = 100000000 :=
    Double.trunc_eq (by norm_num) (by norm_num) (by norm_num)
  rw [h, e]
  rfl

/-- The timing computation at limit 0.5 with no reading. -/
theorem adjust_half_unknown (workingrate : Double) :
    adjust (Double.fin (1 / 2)) workingrate (Double.ofInt (-1)) =
      some ⟨Double.fin (1 / 2), Double.fin (1 / 2), 50000000, 50000000⟩ := by
  have h := adjust_unknown (1 / 2) workingrate (Double.ofInt (-1))
    (by simp [Double.lt, Double.ofInt]) (by norm_num) (by norm_num)
  have e : Double.trunc (100000000 * (1 / 2)) = 50000000 :=
    Double.trunc_eq (by norm_num) (by norm_num) (by norm_num)
  rw [h, e]
  rfl

/-- The timing computation at limit 0.5, previous rate 0.5, aggregate 0.9. -/
theorem adjust_half_after_high :
    adjust (Double.fin (1 / 2)) (Double.fin (1 / 2)) (Double.fin (9 / 10)) =
      some ⟨Double.fin (9 / 10), Double.fin (5 / 18), 27777777, 72222223⟩ := by
  have h := adjust_known (1 / 2) (1 / 2) (9 / 10) (by norm_num) (by norm_num) (by norm_num)
  have m : min ((1 / 2 : ℚ) / (9 / 10) * (1 / 2)) 1 = 5 / 18 := by
    rw [min_eq_left (by norm_num)]
    norm_num
  have e : Double.trunc (100000000 * (5 / 18)) = 27777777 :=
    Double.trunc_eq (by norm_num) (by norm_num) (by norm_num)
  rw [h, m, e]
  rfl

/-- The timing computation at limit 0.5, previous rate 5/18, aggregate 0.5. -/
theorem adjust_half_at_limit :
    adjust (Double.fin (1 / 2)) (Double.fin (5 / 18)) (Double.fin (1 / 2)) =
      some ⟨Double.fin (1 / 2), Double.fin (5 / 18), 27777777, 72222223⟩ := by
  have h := adjust_known (1 / 2) (5 / 18) (1 / 2) (by norm_num) (by norm_num) (by norm_num)
  have m : min ((5 / 18 : ℚ) / (1 / 2) * (1 / 2)) 1 = 5 / 18 := by
    rw [min_eq_left (by norm_num)]
    norm_num
  have e : Double.trunc (100000000 * (5 / 18)) = 27777777 :=
    Double.trunc_eq (by norm_num) (by norm_num) (by norm_num)
  rw [h, m, e]
  rfl

/-- The script of the convergence scenario: one member, pid 1, with the
readings "none", 0.9, 0.5, 0.5. -/
theorem convergence_run :
    ∀ n, n < 4 →
      (limit_process scripted false 1 (Double.fin (1 / 2)) false (Double.fin 0) (n + 1)
          ⟨[[⟨1, Double.ofInt (-1)⟩], [⟨1, Double.fin (9 / 10)⟩], [⟨1, Double.fin (1 / 2)⟩],
            [⟨1, Double.fin (1 / 2)⟩]], []⟩).state.map State.workingrate =
        some (Double.fin (if n = 0 then 1 / 2 else 5 / 18)) := by
  have a1 := aggregate_usage_single_unknown 1
  have a2 := aggregate_usage_single_known 1 (9 / 10) (by norm_num)
  have a3 := aggregate_usage_single_known 1 (1 / 2) (by norm_num)
  intro n hn
  rw [limit_process_scripted_state,
    scripted_run _ _ _ n [⟨1, Double.ofInt (-1)⟩] _ _ _ [] rfl (by simp)
      (by rw [a1]; exact adjust_half_unknown _)]
  match n, hn with
  | 0, _ => rfl
  | n + 1, hn =>
    rw [scripted_run _ _ _ n [⟨1, Double.fin (9 / 10)⟩] _ _ _ [] rfl (by simp)
      (by rw [a2]; exact adjust_half_after_high)]
    match n, hn with
    | 0, _ => rfl
    | n + 1, hn =>
      rw [scripted_run _ _ _ n [⟨1, Double.fin (1 / 2)⟩] _ _ _ [] rfl (by simp)
        (by rw [a3]; exact adjust_half_at_limit)]
      match n, hn with
      | 0, _ => rfl
      | n + 1, hn =>
        rw [scripted_run _ _ _ n [⟨1, Double.fin (1 / 2)⟩] _ _ _ [] rfl (by simp)
          (by rw [a3]; exact adjust_half_at_limit)]
        match n, hn with
        | 0, _ => rfl
        | n + 1, hn => omega

/-- The actions of `increase_priority` are neither signals nor waits. -/
theorem increase_priority_loop_quiet {W : Type} (sys : Sys W) :
    ∀ (n : Nat) (priority : Int) (w : W),
      ∀ e ∈ (increase_priority_loop sys n priority w).2.2, e.is_signal_or_wait = false := by
  intro n
  induction n with
  | zero => intro priority w e he; simp [increase_priority_loop] at he
  | succ n ih =>
    intro priority w e he
    unfold increase_priority_loop at he
    dsimp only at he
    by_cases h : ((sys.setpriority w (priority - 1)).1 && decide (priority > MAX_PRIORITY)) = true
    · rw [if_pos h] at he
      rcases List.mem_cons.mp he with h1 | h1
      · rw [h1]; rfl
      · exact ih _ _ e h1
    · rw [if_neg h] at he
      rw [List.mem_singleton.mp he]; rfl

theorem report_quiet (verbose : Bool) (m : Message) :
    ∀ e ∈ (if verbose then [Event.stdout m] else []), e.is_signal_or_wait = false := by
  intro e he
  cases verbose
  · simp at he
  · simp only [if_true, List.mem_singleton] at he
    rw [he]; rfl

theorem increase_priority_quiet {W : Type} (sys : Sys W) (verbose : Bool) (w : W) :
    ∀ e ∈ (increase_priority sys verbose w).2, e.is_signal_or_wait = false := by
  intro e he
  have hq := increase_priority_loop_quiet sys
    ((sys.getpriority w - MAX_PRIORITY).toNat + 1) (sys.getpriority w) w
  unfold increase_priority at he
  dsimp only at he
  by_cases hc : (increase_priority_loop sys ((sys.getpriority w - MAX_PRIORITY).toNat + 1)
      (sys.getpriority w) w).1 ≠ sys.getpriority w
  · rw [if_pos hc] at he
    rcases List.mem_append.mp he with h | h
    · exact hq e h
    · exact report_quiet verbose _ e h
  · rw [if_neg hc] at he
    rcases List.mem_append.mp he with h | h
    · exact hq e h
    · exact report_quiet verbose _ e h

theorem quit_loop_events {W : Type} (sys : Sys W) :
    ∀ (l : List Process) (w : W),
      (quit_loop sys l w).2 =
        List.zipWith (fun (p : Process) (ok : Bool) => Event.kill p.pid Signal.SIGCONT ok) l
          (kill_results sys Signal.SIGCONT l w) := by
  intro l
  induction l with
  | nil => intro w; rfl
  | cons p next ih => intro w; simp [quit_loop, kill_results, ih]

theorem limit_below_zero (perclimit : Int) :
    Double.lt (Double.div (Double.ofInt perclimit) (Double.fin 100)) (Double.ofInt 0) =
      decide (perclimit < 0) := by
  have e : ((perclimit : ℚ) / 100 < 0) ↔ perclimit < 0 := by
    rw [div_lt_iff₀ (by norm_num)]
    simp
  simp only [Double.div, Double.ofInt, Double.lt, Int.cast_zero]
  rw [if_neg (by norm_num)]
  simp only [e]

theorem limit_above_ncpu (perclimit NCPU : Int) :
    Double.gt (Double.div (Double.ofInt perclimit) (Double.fin 100)) (Double.ofInt NCPU) =
      decide (100 * NCPU < perclimit) := by
  have e : ((NCPU : ℚ) < (perclimit : ℚ) / 100) ↔ 100 * NCPU < perclimit := by
    rw [lt_div_iff₀ (by norm_num)]
    constructor
    · intro h
      have : ((NCPU * 100 : Int) : ℚ) < (perclimit : ℚ) := by push_cast; exact h
      have := Int.cast_lt.mp this
      omega
    · intro h
      have : ((NCPU * 100 : Int) : ℚ) < (perclimit : ℚ) := Int.cast_lt.mpr (by omega)
      push_cast at this
      exact this
  simp only [Double.gt, Double.div, Double.ofInt, Double.lt]
  rw [if_neg (by norm_num)]
  simp only [e]

/-- The checks of `main` in integer terms. -/
theorem main_checks_eq (NCPU pid_max : Int) (a : Arguments) :
    main_checks NCPU pid_max a =
      if a.pid_ok && (decide (a.pid ≤ 1) || decide (a.pid ≥ pid_max)) then
        some Message.invalid_pid
      else if !a.limit_ok then some Message.no_limit
      else if decide (a.perclimit < 0) || decide (100 * NCPU < a.perclimit) then
        some Message.limit_out_of_range
      else if a.exe_ok.toNat + a.pid_ok.toNat + a.command_mode.toNat = 0 then
        some Message.no_target
      else if a.exe_ok.toNat + a.pid_ok.toNat + a.command_mode.toNat > 1 then
        some Message.several_targets
      else none := by
  unfold main_checks
  simp only [limit_below_zero, limit_above_ncpu]

theorem main_checks_none_iff (NCPU pid_max : Int) (a : Arguments) :
    main_checks NCPU pid_max a = none ↔ accepted_arguments NCPU pid_max a := by
  rw [main_checks_eq]
  obtain ⟨exe_ok, pid_ok, limit_ok, pid, perclimit, command_mode⟩ := a
  unfold accepted_arguments
  cases exe_ok <;> cases pid_ok <;> cases limit_ok <;> cases command_mode <;>
    simp <;> split_ifs <;> simp <;> omega

/-- Where the timing computation keeps the rate in (0, 1] and the work slice
inside the slot: with a positive limit and a positive previous rate, in every
pass with a finite non-negative aggregate, and in a pass without a reading
when the limit is at most 1. -/
theorem timing_within_slot (l w : ℚ) (pcpu : Double) (hl : 0 < l) (hw : 0 < w)
    (h : (pcpu = Double.ofInt (-1) ∧ l ≤ 1) ∨ ∃ a : ℚ, 0 ≤ a ∧ pcpu = Double.fin a) :
    ∃ t r, adjust (Double.fin l) (Double.fin w) pcpu = some t ∧
      t.workingrate = Double.fin r ∧ 0 < r ∧ r ≤ 1 ∧
      0 ≤ t.twork ∧ t.twork ≤ 100000000 ∧ t.twork + t.tsleep = 100000000 := by
  have key : ∀ r : ℚ, 0 < r → r ≤ 1 →
      0 ≤ Double.trunc (100000000 * r) ∧ Double.trunc (100000000 * r) ≤ 100000000 := by
    intro r h0 h1
    have q0 : (0 : ℚ) ≤ 100000000 * r := by positivity
    refine ⟨Double.trunc_nonneg q0, Double.trunc_le_of_le q0 ?_⟩
    push_cast
    linarith
  rcases h with ⟨hp, hl1⟩ | ⟨a, ha, hp⟩
  · subst hp
    refine ⟨_, l, adjust_unknown l _ _ (by simp [Double.lt, Double.ofInt]) (le_of_lt hl)
      (by linarith), rfl, hl, hl1, (key l hl hl1).1, (key l hl hl1).2, ?_⟩
    simp
  · subst hp
    rcases eq_or_lt_of_le ha with h0 | h0
    · subst h0
      exact ⟨_, 1, adjust_zero l w hl hw, rfl, by norm_num, le_refl _, by norm_num, by norm_num,
        by norm_num⟩
    · have r0 : 0 < min (w / a * l) 1 := lt_min (by positivity) (by norm_num)
      have r1 : min (w / a * l) 1 ≤ 1 := min_le_right _ _
      refine ⟨_, _, adjust_known l w a (le_of_lt hl) (le_of_lt hw) h0, rfl, r0, r1,
        (key _ r0 r1).1, (key _ r0 r1).2, ?_⟩
      simp

/-- With the refresh of the specification, a pid whose SIGCONT failed in a
pass is not counted by the aggregate of the next pass: whatever is reported
then, a member with that pid has no reading, and the aggregate is the one of
the refreshed list without that pid. -/
theorem failed_member_not_counted {W : Type} (sys : Sys W)
    (enumerate_group : W → List Process × W) (limit minimum_cpu_usage : Double)
    (verbose : Bool) (s : State W) (t : Timing)
    (hne : ((observing sys enumerate_group).update_process_group s.world s.proclist).1 ≠ [])
    (hpids : (((observing sys enumerate_group).update_process_group s.world s.proclist).1.map
      Process.pid).Nodup)
    (ht : adjust limit s.workingrate (aggregate_usage
      ((observing sys enumerate_group).update_process_group s.world s.proclist).1) = some t) :
    ∃ s1 ev,
      cycle (observing sys enumerate_group) limit minimum_cpu_usage verbose s =
        Step.next s1 ev ∧
      ∀ pid, (pid, Signal.SIGCONT, false) ∈ signals ev →
        (∀ p ∈ ((observing sys enumerate_group).update_process_group s1.world s1.proclist).1,
          p.pid = pid → Double.lt p.cpu_usage (Double.ofInt 0) = true) ∧
        aggregate_usage
            ((observing sys enumerate_group).update_process_group s1.world s1.proclist).1 =
          aggregate_usage
            (((observing sys enumerate_group).update_process_group s1.world s1.proclist).1.filter
              (fun p => decide (p.pid ≠ pid))) := by
  obtain ⟨s1, ev, hc, hsig, hsub⟩ := cycle_keeps_resumed (observing sys enumerate_group) limit
    minimum_cpu_usage verbose s t hne ht
  refine ⟨s1, ev, hc, ?_⟩
  intro pid hfail
  have hspec := resume_loop_spec (observing sys enumerate_group) verbose
    ((observing sys enumerate_group).update_process_group s.world s.proclist).1 []
    ((observing sys enumerate_group).update_process_group s.world s.proclist).2
  simp only [List.nil_append, List.length_nil] at hspec
  have hin := hsig _ hfail rfl
  rw [hspec.2] at hin
  have hkept := kept_exclude_failed Signal.SIGCONT pid _ _ hpids hin
  rw [← hspec.1] at hkept
  have hnot : pid ∉ s1.proclist.map Process.pid := by
    intro hmem
    obtain ⟨x, hx, hxp⟩ := List.mem_map.mp hmem
    exact hkept x (hsub x hx) hxp
  have hunknown : ∀ p ∈ ((observing sys enumerate_group).update_process_group
      s1.world s1.proclist).1, p.pid = pid → Double.lt p.cpu_usage (Double.ofInt 0) = true :=
    refresh_new_unknown s1.proclist (enumerate_group s1.world).1 pid hnot
  refine ⟨hunknown, ?_⟩
  unfold aggregate_usage
  apply aggregate_loop_filter
  intro p hp hk
  exact hunknown p hp (by simpa using hk)

/-! ## The claims -/

/-- C1 (evaluation at the failing input). The claim asks for a `working_rate`
in [0, 1] after every cycle. With `--limit=150` on a machine with two CPUs the
configuration check accepts the arguments, and after the first pass over a
member without a reading the `workingrate` held by `limit_process` is 1.5,
which is above 1: the first branch assigns the limit without the `MIN(..., 1)`
of the second branch. -/
theorem limit_process_first_rate_above_one :
    main_checks 2 32768 ⟨false, true, true, 1234, 150, false⟩ = none ∧
    (limit_process scripted false 1234 (Double.div (Double.ofInt 150) (Double.fin 100)) false
        (Double.fin 0) 1 ⟨[[⟨1234, Double.ofInt (-1)⟩]], []⟩).state.map State.workingrate =
      some (Double.fin (3 / 2)) ∧
    Double.gt (Double.fin (3 / 2)) (Double.ofInt 1) = true := by
  refine ⟨?_, ?_, ?_⟩
  · simp [main_checks, Double.div, Double.ofInt, Double.lt, Double.gt]
    norm_num
  · rw [limit_process_scripted_state, limit_150_percent,
      scripted_run _ _ _ 0 [⟨1234, Double.ofInt (-1)⟩] [] _ _ [] rfl (by simp)
        (by rw [aggregate_usage_single_unknown]; exact adjust_limit_150_percent _)]
    rfl
  · simp [Double.gt, Double.lt, Double.ofInt]
    norm_num

/-- C2 (evaluation at the failing input). The claim asks for
`0 <= work_duration <= slot_length` and a non-negative `sleep_duration` in every
cycle. In the run of C1 (`--limit=150`, two CPUs, first pass) the pass leaves
`twork.tv_nsec = 150000000`, above the slot of `TIME_SLOT * 1000 = 100000000` ns,
and `tsleep.tv_nsec = -50000000`, below zero; only their sum is the slot. -/
theorem limit_process_first_work_exceeds_slot :
    (limit_process scripted false 1234 (Double.div (Double.ofInt 150) (Double.fin 100)) false
        (Double.fin 0) 1 ⟨[[⟨1234, Double.ofInt (-1)⟩]], []⟩).state.map
          (fun s => (s.twork, s.tsleep)) = some (150000000, -50000000) ∧
    (150000000 : Int) > TIME_SLOT * 1000 ∧ (-50000000 : Int) < 0 ∧
    (150000000 : Int) + (-50000000) = TIME_SLOT * 1000 := by
  refine ⟨?_, by decide, by decide, by decide⟩
  rw [limit_process_scripted_state, limit_150_percent,
    scripted_run _ _ _ 0 [⟨1234, Double.ofInt (-1)⟩] [] _ _ [] rfl (by simp)
      (by rw [aggregate_usage_single_unknown]; exact adjust_limit_150_percent _)]
  rfl

/-- C3 (counterexample). Limit 0.5, one member whose readings are "none" and
then exactly 0: the aggregate of the second pass is 0, the `workingrate` is 0.5
after the first pass and 1 after the second, so the pass with aggregate 0
changed it. -/
theorem zero_aggregate_changes_rate :
    aggregate_usage [⟨1, Double.fin 0⟩] = Double.fin 0 ∧
    (limit_process scripted false 1 (Double.fin (1 / 2)) false (Double.fin 0) 1
        ⟨[[⟨1, Double.ofInt (-1)⟩], [⟨1, Double.fin 0⟩]], []⟩).state.map State.workingrate =
      some (Double.fin (1 / 2)) ∧
    (limit_process scripted false 1 (Double.fin (1 / 2)) false (Double.fin 0) 2
        ⟨[[⟨1, Double.ofInt (-1)⟩], [⟨1, Double.fin 0⟩]], []⟩).state.map State.workingrate =
      some (Double.fin 1) ∧
    Double.fin 1 ≠ Double.fin (1 / 2) := by
  have a0 := aggregate_usage_single_known 1 0 (le_refl 0)
  refine ⟨a0, ?_, ?_, ?_⟩
  · rw [limit_process_scripted_state,
      scripted_run _ _ _ 0 [⟨1, Double.ofInt (-1)⟩] [[⟨1, Double.fin 0⟩]] _ _ [] rfl (by simp)
        (by rw [aggregate_usage_single_unknown]; exact adjust_half_unknown _)]
    rfl
  · rw [limit_process_scripted_state,
      scripted_run _ _ _ 1 [⟨1, Double.ofInt (-1)⟩] [[⟨1, Double.fin 0⟩]] _ _ [] rfl (by simp)
        (by rw [aggregate_usage_single_unknown]; exact adjust_half_unknown _),
      scripted_run _ _ _ 0 [⟨1, Double.fin 0⟩] [] _ _ [] rfl (by simp)
        (by rw [a0]; exact adjust_zero (1 / 2) (1 / 2) (by norm_num) (by norm_num))]
    rfl
  · intro h
    injection h with h
    norm_num at h

/-- C3 (amended). `limit_process` has no guard for an aggregate of zero: with a
positive limit and a positive previous `workingrate`, a pass whose aggregate is
exactly 0 divides by it, the quotient is `+inf`, and `MIN(..., 1)` leaves
`workingrate = 1`, a work slice of the whole slot and a sleep slice of 0. -/
theorem zero_aggregate_gives_full_rate (limit workingrate : ℚ) (hl : 0 < limit)
    (hw : 0 < workingrate) :
    adjust (Double.fin limit) (Double.fin workingrate) (Double.fin 0) =
      some ⟨Double.fin 0, Double.fin 1, TIME_SLOT * 1000, 0⟩ :=
  adjust_zero limit workingrate hl hw

/-- The amended C3 at limit 0.5 and previous rate 0.5. -/
theorem zero_aggregate_gives_full_rate_witness :
    (0 : ℚ) < 1 / 2 ∧
    adjust (Double.fin (1 / 2)) (Double.fin (1 / 2)) (Double.fin 0) =
      some ⟨Double.fin 0, Double.fin 1, TIME_SLOT * 1000, 0⟩ :=
  ⟨by norm_num, zero_aggregate_gives_full_rate (1 / 2) (1 / 2) (by norm_num) (by norm_num)⟩

/-- C4 (counterexample). At the claim's own witness (limit 0.5, previous rate
0.5, aggregate 0.9) the new `workingrate` is the reference value 5/18, but the
stored work slice is 27777777 ns, which is not `slot_length * working_rate`
(27777777.77... ns): the assignment to the `long` field drops the fraction. -/
theorem work_slice_differs_from_reference :
    ∃ t, adjust (Double.fin (1 / 2)) (Double.fin (1 / 2)) (Double.fin (9 / 10)) = some t ∧
      t.workingrate =
        Double.fin (reference_timing 100000000 (1 / 2) (1 / 2) (some (9 / 10))).1 ∧
      t.workingrate = Double.fin (5 / 18) ∧
      ((t.twork : Int) : ℚ) ≠ (reference_timing 100000000 (1 / 2) (1 / 2) (some (9 / 10))).2 := by
  have m : min ((1 / 2 : ℚ) / (9 / 10) * (1 / 2)) 1 = 5 / 18 := by
    rw [min_eq_left (by norm_num)]
    norm_num
  refine ⟨_, adjust_half_after_high, ?_, rfl, ?_⟩
  · simp only [reference_timing, m]
  · simp only [reference_timing, m]
    norm_num

/-- C4 (amended). For every limit that `main` can pass (`perclimit / 100.0`
with a positive `int`), the timing computation of `limit_process` follows the
reference definition in its rate, and in its work slice up to the conversion
to the `long` field: with no reading, `workingrate = limit`; with a positive
aggregate `a` and a non-negative previous rate `w`,
`workingrate = min (w / a * limit) 1`; in both cases `twork` is a whole number
of nanoseconds less than 2 ns away from `slot_length * workingrate`, and
`twork + tsleep` is the slot of `TIME_SLOT * 1000` ns exactly. -/
theorem adjust_tracks_reference (perclimit : Int) (h0 : 0 < perclimit)
    (h1 : perclimit ≤ 2147483647) :
    (∀ workingrate : Double,
      ∃ t, adjust (Double.div (Double.ofInt perclimit) (Double.fin 100)) workingrate
          (Double.ofInt (-1)) = some t ∧
        t.workingrate = Double.fin (reference_timing 100000000 (perclimit / 100) 0 none).1 ∧
        |((t.twork : Int) : ℚ) - (reference_timing 100000000 (perclimit / 100) 0 none).2| < 2 ∧
        t.twork + t.tsleep = TIME_SLOT * 1000) ∧
    (∀ w a : ℚ, 0 ≤ w → 0 < a →
      ∃ t, adjust (Double.div (Double.ofInt perclimit) (Double.fin 100)) (Double.fin w)
          (Double.fin a) = some t ∧
        t.workingrate =
          Double.fin (reference_timing 100000000 (perclimit / 100) w (some a)).1 ∧
        |((t.twork : Int) : ℚ) -
          (reference_timing 100000000 (perclimit / 100) w (some a)).2| < 2 ∧
        t.twork + t.tsleep = TIME_SLOT * 1000) := by
  have hl := limit_of_perclimit perclimit
  have hp : (0 : ℚ) < perclimit := by exact_mod_cast h0
  have hp1 : (perclimit : ℚ) ≤ 2147483647 := by exact_mod_cast h1
  have l0 : (0 : ℚ) < (perclimit : ℚ) / 100 := by positivity
  have l1 : (perclimit : ℚ) / 100 ≤ 2 ^ 32 := by
    rw [div_le_iff₀ (by norm_num)]
    linarith
  rw [hl]
  constructor
  · intro workingrate
    have e := adjust_unknown _ workingrate (Double.ofInt (-1))
      (by simp [Double.lt, Double.ofInt]) (le_of_lt l0) l1
    have hb := Double.trunc_near (q := 100000000 * ((perclimit : ℚ) / 100)) (by positivity)
    refine ⟨_, e, rfl, ?_, ?_⟩
    · simp only [reference_timing]
      linarith
    · simp [TIME_SLOT]
  · intro w a hw ha
    have r0 : 0 ≤ min (w / a * ((perclimit : ℚ) / 100)) 1 := le_min (by positivity) (by norm_num)
    have e := adjust_known _ w a (le_of_lt l0) hw ha
    have hb := Double.trunc_near
      (q := 100000000 * min (w / a * ((perclimit : ℚ) / 100)) 1) (by positivity)
    refine ⟨_, e, rfl, ?_, ?_⟩
    · simp only [reference_timing]
      linarith
    · simp [TIME_SLOT]

/-- The amended C4 at `--limit=50`: the pass without a reading, and the pass
with previous rate 0.5 and aggregate 0.9. -/
theorem adjust_tracks_reference_witness :
    (0 : Int) < 50 ∧ (50 : Int) ≤ 2147483647 ∧
    (∃ t, adjust (Double.div (Double.ofInt 50) (Double.fin 100)) (Double.ofInt (-1))
        (Double.ofInt (-1)) = some t ∧
      t.workingrate = Double.fin (reference_timing 100000000 ((50 : Int) / 100) 0 none).1 ∧
      |((t.twork : Int) : ℚ) - (reference_timing 100000000 ((50 : Int) / 100) 0 none).2| < 2 ∧
      t.twork + t.tsleep = TIME_SLOT * 1000) ∧
    (∃ t, adjust (Double.div (Double.ofInt 50) (Double.fin 100)) (Double.fin (1 / 2))
        (Double.fin (9 / 10)) = some t ∧
      t.workingrate =
        Double.fin (reference_timing 100000000 ((50 : Int) / 100) (1 / 2) (some (9 / 10))).1 ∧
      |((t.twork : Int) : ℚ) -
        (reference_timing 100000000 ((50 : Int) / 100) (1 / 2) (some (9 / 10))).2| < 2 ∧
      t.twork + t.tsleep = TIME_SLOT * 1000) :=
  ⟨by norm_num, by norm_num,
    (adjust_tracks_reference 50 (by norm_num) (by norm_num)).1 (Double.ofInt (-1)),
    (adjust_tracks_reference 50 (by norm_num) (by norm_num)).2 (1 / 2) (9 / 10)
      (by norm_num) (by norm_num)⟩

/-- C5 (counterexample). Limit 0.5, one member with the readings "none", 0.9,
0.5, 0.5: the `workingrate` after the passes 2, 3 and 4 is 5/18 each time, so
neither pass 3 nor pass 4 brings it closer to 0.5 than the pass before. -/
theorem rate_does_not_approach_limit :
    ∃ r2 r3 r4 : ℚ,
      (limit_process scripted false 1 (Double.fin (1 / 2)) false (Double.fin 0) 2
          ⟨[[⟨1, Double.ofInt (-1)⟩], [⟨1, Double.fin (9 / 10)⟩], [⟨1, Double.fin (1 / 2)⟩],
            [⟨1, Double.fin (1 / 2)⟩]], []⟩).state.map State.workingrate =
        some (Double.fin r2) ∧
      (limit_process scripted false 1 (Double.fin (1 / 2)) false (Double.fin 0) 3
          ⟨[[⟨1, Double.ofInt (-1)⟩], [⟨1, Double.fin (9 / 10)⟩], [⟨1, Double.fin (1 / 2)⟩],
            [⟨1, Double.fin (1 / 2)⟩]], []⟩).state.map State.workingrate =
        some (Double.fin r3) ∧
      (limit_process scripted false 1 (Double.fin (1 / 2)) false (Double.fin 0) 4
          ⟨[[⟨1, Double.ofInt (-1)⟩], [⟨1, Double.fin (9 / 10)⟩], [⟨1, Double.fin (1 / 2)⟩],
            [⟨1, Double.fin (1 / 2)⟩]], []⟩).state.map State.workingrate =
        some (Double.fin r4) ∧
      ¬ (|r3 - 1 / 2| < |r2 - 1 / 2|) ∧ ¬ (|r4 - 1 / 2| < |r3 - 1 / 2|) :=
  ⟨5 / 18, 5 / 18, 5 / 18, convergence_run 1 (by decide), convergence_run 2 (by decide),
    convergence_run 3 (by decide), lt_irrefl _, lt_irrefl _⟩

/-- C5 (amended). Limit 0.5, one member with the readings "none", 0.9, 0.5,
0.5: the `workingrate` is 0.5 after the first pass, 5/18 (about 0.278) after
the second, and stays exactly 5/18 after the third and the fourth: a reading
equal to the limit leaves the rate where it is. -/
theorem rate_stays_when_usage_is_limit :
    (List.range 4).map (fun n =>
      (limit_process scripted false 1 (Double.fin (1 / 2)) false (Double.fin 0) (n + 1)
          ⟨[[⟨1, Double.ofInt (-1)⟩], [⟨1, Double.fin (9 / 10)⟩], [⟨1, Double.fin (1 / 2)⟩],
            [⟨1, Double.fin (1 / 2)⟩]], []⟩).state.map State.workingrate) =
      [some (Double.fin (1 / 2)), some (Double.fin (5 / 18)), some (Double.fin (5 / 18)),
        some (Double.fin (5 / 18))] := by
  have h0 := convergence_run 0 (by decide)
  have h1 := convergence_run 1 (by decide)
  have h2 := convergence_run 2 (by decide)
  have h3 := convergence_run 3 (by decide)
  simp only [List.range, List.range.loop, List.map]
  rw [h0, h1, h2, h3]
  rfl

/-- C6. In a pass of `limit_process` whose refreshed member list has distinct
pids and whose timing computation is defined, a member whose `cpu_usage` is
below `minimum_cpu_usage` is sent SIGCONT and is not sent SIGSTOP, whatever
the sleep slice of the pass is. -/
theorem low_usage_member_is_resumed_not_stopped {W : Type} (sys : Sys W)
    (limit minimum_cpu_usage : Double) (verbose : Bool) (s : State W) (t : Timing) (m : Process)
    (hm : m ∈ (sys.update_process_group s.world s.proclist).1)
    (hpids : ((sys.update_process_group s.world s.proclist).1.map Process.pid).Nodup)
    (hlow : Double.lt m.cpu_usage minimum_cpu_usage = true)
    (ht : adjust limit s.workingrate
      (aggregate_usage (sys.update_process_group s.world s.proclist).1) = some t) :
    ∃ s1 ev, cycle sys limit minimum_cpu_usage verbose s = Step.next s1 ev ∧
      s1.tsleep = t.tsleep ∧
      (∃ ok, (m.pid, Signal.SIGCONT, ok) ∈ signals ev) ∧
      ∀ ok, (m.pid, Signal.SIGSTOP, ok) ∉ signals ev := by
  obtain ⟨s1, ev, hc, -, -, hts, hsig⟩ := cycle_signals sys limit minimum_cpu_usage verbose s t
    (List.ne_nil_of_mem hm) ht
  have hr := (resume_loop_spec sys verbose (sys.update_process_group s.world s.proclist).1 []
    (sys.update_process_group s.world s.proclist).2).2
  simp only [List.nil_append, List.length_nil] at hr
  refine ⟨s1, ev, hc, hts, ?_, ?_⟩
  · obtain ⟨ok, hok⟩ := delivery_mem sys Signal.SIGCONT _
      (sys.update_process_group s.world s.proclist).2 m hm
    exact ⟨ok, by rw [hsig, hr]; exact List.mem_append_left _ hok⟩
  · intro ok hmem
    rw [hsig, hr] at hmem
    rcases List.mem_append.mp hmem with h | h
    · have := delivery_signal sys Signal.SIGCONT _ _ _ h
      simp at this
    · by_cases hs : t.tsleep > 0
      · simp only [hs, if_true] at h
        obtain ⟨p, hp, hg, hpid, -⟩ := stop_loop_signals sys minimum_cpu_usage verbose _ _ _ _ _ h
        have hp1 := resume_loop_subset sys verbose _ _ p hp
        have e : p = m := List.inj_on_of_nodup_map hpids hp1 hm hpid.symm
        rw [e] at hg
        have := Double.lt_asymm hlow
        unfold Double.gt at hg
        rw [hg] at this
        exact Bool.noConfusion this
      · simp [hs] at h

/-- C6 at `minimum_cpu_usage = 0.1` for two members: pid 7 with usage 0.05 and
pid 8 with usage 0.9; limit 0.5, previous rate 0.5. The sleep slice of the pass
is 73684211 ns, pid 7 is sent SIGCONT and no SIGSTOP. -/
theorem low_usage_member_is_resumed_not_stopped_witness :
    adjust (Double.fin (1 / 2)) (Double.fin (1 / 2))
        (aggregate_usage [⟨7, Double.fin (1 / 20)⟩, ⟨8, Double.fin (9 / 10)⟩]) =
      some ⟨Double.fin (19 / 20), Double.fin (5 / 19), 26315789, 73684211⟩ ∧
    ∃ s1 ev, cycle scripted (Double.fin (1 / 2)) (Double.fin (1 / 10)) false
        ⟨⟨[[⟨7, Double.fin (1 / 20)⟩, ⟨8, Double.fin (9 / 10)⟩]], []⟩, [], Double.fin (1 / 2),
          50000000, 50000000, 1⟩ = Step.next s1 ev ∧
      s1.tsleep = 73684211 ∧
      (∃ ok, (7, Signal.SIGCONT, ok) ∈ signals ev) ∧
      ∀ ok, (7, Signal.SIGSTOP, ok) ∉ signals ev := by
  have ha : aggregate_usage [⟨7, Double.fin (1 / 20)⟩, ⟨8, Double.fin (9 / 10)⟩] =
      Double.fin (19 / 20) := by
    simp [aggregate_usage, aggregate_loop, Double.lt, Double.ofInt, Double.add]
    norm_num
  have ht : adjust (Double.fin (1 / 2)) (Double.fin (1 / 2))
      (aggregate_usage [⟨7, Double.fin (1 / 20)⟩, ⟨8, Double.fin (9 / 10)⟩]) =
      some ⟨Double.fin (19 / 20), Double.fin (5 / 19), 26315789, 73684211⟩ := by
    have h := adjust_known (1 / 2) (1 / 2) (19 / 20) (by norm_num) (by norm_num) (by norm_num)
    have m : min ((1 / 2 : ℚ) / (19 / 20) * (1 / 2)) 1 = 5 / 19 := by
      rw [min_eq_left (by norm_num)]
      norm_num
    have e : Double.trunc (100000000 * (5 / 19)) = 26315789 :=
      Double.trunc_eq (by norm_num) (by norm_num) (by norm_num)
    rw [ha, h, m, e]
    rfl
  exact ⟨ht, low_usage_member_is_resumed_not_stopped scripted (Double.fin (1 / 2))
    (Double.fin (1 / 10)) false
    ⟨⟨[[⟨7, Double.fin (1 / 20)⟩, ⟨8, Double.fin (9 / 10)⟩]], []⟩, [], Double.fin (1 / 2),
      50000000, 50000000, 1⟩
    ⟨Double.fin (19 / 20), Double.fin (5 / 19), 26315789, 73684211⟩ ⟨7, Double.fin (1 / 20)⟩
    (by simp [scripted]) (by simp [scripted])
    (by simp [Double.lt]; norm_num) ht⟩

/-- C7. The resume loop of `limit_process` attempts one SIGCONT per member, in
the order of the member list, and the list it leaves is exactly the
sub-sequence of the members whose `kill` succeeded, each unchanged. With the
refresh of the specification, in a pass over a member list with distinct pids
whose timing computation is defined, a pid whose SIGCONT failed is not counted
by the aggregate that the next pass computes after its refresh: a member that
is reported again under that pid has no reading, and the aggregate equals the
one of the refreshed list without that pid. -/
theorem resume_keeps_exactly_the_delivered {W : Type} (sys : Sys W) (verbose : Bool)
    (proclist : List Process) (w : W) :
    (kill_results sys Signal.SIGCONT proclist w).length = proclist.length ∧
    signals (resume_loop sys verbose proclist 0 proclist w).events =
      List.zipWith (fun (p : Process) (ok : Bool) => (p.pid, Signal.SIGCONT, ok)) proclist
        (kill_results sys Signal.SIGCONT proclist w) ∧
    (resume_loop sys verbose proclist 0 proclist w).proclist =
      ((proclist.zip (kill_results sys Signal.SIGCONT proclist w)).filter
        (fun x => x.2)).map Prod.fst ∧
    (∀ (enumerate_group : W → List Process × W) (limit minimum_cpu_usage : Double)
        (s : State W) (t : Timing),
      ((observing sys enumerate_group).update_process_group s.world s.proclist).1 ≠ [] →
      (((observing sys enumerate_group).update_process_group s.world s.proclist).1.map
        Process.pid).Nodup →
      adjust limit s.workingrate (aggregate_usage
        ((observing sys enumerate_group).update_process_group s.world s.proclist).1) = some t →
      ∃ s1 ev,
        cycle (observing sys enumerate_group) limit minimum_cpu_usage verbose s =
          Step.next s1 ev ∧
        ∀ pid, (pid, Signal.SIGCONT, false) ∈ signals ev →
          (∀ p ∈ ((observing sys enumerate_group).update_process_group s1.world s1.proclist).1,
            p.pid = pid → Double.lt p.cpu_usage (Double.ofInt 0) = true) ∧
          aggregate_usage
              ((observing sys enumerate_group).update_process_group s1.world s1.proclist).1 =
            aggregate_usage
              (((observing sys enumerate_group).update_process_group s1.world
                s1.proclist).1.filter (fun p => decide (p.pid ≠ pid)))) := by
  have h := resume_loop_spec sys verbose proclist [] w
  simp only [List.nil_append, List.length_nil] at h
  exact ⟨kill_results_length sys _ proclist w, h.2, h.1,
    fun enumerate_group limit minimum_cpu_usage s t hne hpids ht =>
      failed_member_not_counted sys enumerate_group limit minimum_cpu_usage verbose s t hne
        hpids ht⟩

/-- C7 for the scripted world in which pid 6 is dead: the members 5 (usage
0.5) and 6 (usage 0.25) are in the list and are reported; limit 0.5, previous
rate 0.5. The SIGCONT to pid 6 fails in this pass, and the aggregate of the
next pass does not count pid 6. -/
theorem resume_keeps_exactly_the_delivered_witness :
    ∃ s1 ev,
      cycle (observing scripted enumerate_script) (Double.fin (1 / 2)) (Double.fin 0) false
          ⟨⟨[[⟨5, Double.fin (1 / 2)⟩, ⟨6, Double.fin (1 / 4)⟩]], [6]⟩,
            [⟨5, Double.fin (1 / 2)⟩, ⟨6, Double.fin (1 / 4)⟩], Double.fin (1 / 2),
            50000000, 50000000, 1⟩ = Step.next s1 ev ∧
      (6, Signal.SIGCONT, false) ∈ signals ev ∧
      (∀ p ∈ ((observing scripted enumerate_script).update_process_group s1.world
          s1.proclist).1, p.pid = 6 → Double.lt p.cpu_usage (Double.ofInt 0) = true) ∧
      aggregate_usage
          ((observing scripted enumerate_script).update_process_group s1.world s1.proclist).1 =
        aggregate_usage
          (((observing scripted enumerate_script).update_process_group s1.world
            s1.proclist).1.filter (fun p => decide (p.pid ≠ 6))) := by
  have hu : (observing scripted enumerate_script).update_process_group
      (⟨[[⟨5, Double.fin (1 / 2)⟩, ⟨6, Double.fin (1 / 4)⟩]], [6]⟩ : Script)
      [⟨5, Double.fin (1 / 2)⟩, ⟨6, Double.fin (1 / 4)⟩] =
      ([⟨5, Double.fin (1 / 2)⟩, ⟨6, Double.fin (1 / 4)⟩], ⟨[], [6]⟩) := by
    simp [observing, refresh, enumerate_script]
  have ha : aggregate_usage [⟨5, Double.fin (1 / 2)⟩, ⟨6, Double.fin (1 / 4)⟩] =
      Double.fin (3 / 4) := by
    simp [aggregate_usage, aggregate_loop, Double.lt, Double.ofInt, Double.add]
    norm_num
  have ht : adjust (Double.fin (1 / 2)) (Double.fin (1 / 2))
      (aggregate_usage [⟨5, Double.fin (1 / 2)⟩, ⟨6, Double.fin (1 / 4)⟩]) =
      some ⟨Double.fin (3 / 4), Double.fin (1 / 3), 33333333, 66666667⟩ := by
    have h := adjust_known (1 / 2) (1 / 2) (3 / 4) (by norm_num) (by norm_num) (by norm_num)
    have m : min ((1 / 2 : ℚ) / (3 / 4) * (1 / 2)) 1 = 1 / 3 := by
      rw [min_eq_left (by norm_num)]
      norm_num
    have e : Double.trunc (100000000 * (1 / 3)) = 33333333 :=
      Double.trunc_eq (by norm_num) (by norm_num) (by norm_num)
    rw [ha, h, m, e]
    rfl
  obtain ⟨s1, ev, hc, h⟩ := (resume_keeps_exactly_the_delivered scripted false [] ⟨[], []⟩).2.2.2
    enumerate_script (Double.fin (1 / 2)) (Double.fin 0)
    ⟨⟨[[⟨5, Double.fin (1 / 2)⟩, ⟨6, Double.fin (1 / 4)⟩]], [6]⟩,
      [⟨5, Double.fin (1 / 2)⟩, ⟨6, Double.fin (1 / 4)⟩], Double.fin (1 / 2),
      50000000, 50000000, 1⟩
    ⟨Double.fin (3 / 4), Double.fin (1 / 3), 33333333, 66666667⟩
    (by rw [hu]; simp) (by rw [hu]; simp) (by rw [hu]; exact ht)
  obtain ⟨s2, ev2, hc2, -, -, -, hs⟩ := cycle_signals (observing scripted enumerate_script)
    (Double.fin (1 / 2)) (Double.fin 0) false
    ⟨⟨[[⟨5, Double.fin (1 / 2)⟩, ⟨6, Double.fin (1 / 4)⟩]], [6]⟩,
      [⟨5, Double.fin (1 / 2)⟩, ⟨6, Double.fin (1 / 4)⟩], Double.fin (1 / 2),
      50000000, 50000000, 1⟩
    ⟨Double.fin (3 / 4), Double.fin (1 / 3), 33333333, 66666667⟩
    (by rw [hu]; simp) (by rw [hu]; exact ht)
  have hev : ev = ev2 := by
    have := hc.symm.trans hc2
    injection this
  have hfail : (6, Signal.SIGCONT, false) ∈ signals ev := by
    rw [hev, hs, hu]
    apply List.mem_append_left
    simp [resume_loop, observing, scripted, signals, delete_node]
  exact ⟨s1, ev, hc, hfail, h 6 hfail⟩

/-- C8. The handler `quit`, run on a member list, sends SIGCONT to every
member of the list in order, then releases the list with
`close_process_group`, and only then writes, flushes and calls `exit(0)`. -/
theorem quit_resumes_every_member {W : Type} (sys : Sys W) (proclist : List Process) (w : W) :
    (kill_results sys Signal.SIGCONT proclist w).length = proclist.length ∧
    quit sys (some proclist) w =
      List.zipWith (fun (p : Process) (ok : Bool) => Event.kill p.pid Signal.SIGCONT ok)
          proclist (kill_results sys Signal.SIGCONT proclist w) ++
        [Event.close_process_group, Event.stdout Message.carriage_return, Event.fflush,
          Event.exit 0] := by
  refine ⟨kill_results_length sys _ proclist w, ?_⟩
  simp [quit, quit_loop_events]

/-- C9. If the first refresh of `limit_process` leaves an empty member list,
then for every limit, every flag and every bound of at least one pass the
function returns from its first pass, and nothing it did is a signal delivery
or a wait. -/
theorem empty_group_returns_without_signal {W : Type} (sys : Sys W) (verbose : Bool) (pid : Int)
    (limit : Double) (include_children : Bool) (minimum_cpu_usage : Double) (passes : Nat)
    (w : W)
    (h : (sys.update_process_group
        (sys.init_process_group (increase_priority sys verbose w).1 pid include_children).2
        (sys.init_process_group (increase_priority sys verbose w).1 pid include_children).1).1
      = []) :
    ∃ s ev,
      limit_process sys verbose pid limit include_children minimum_cpu_usage (passes + 1) w =
        Outcome.returned s ev ∧
      s.proclist = [] ∧ ∀ e ∈ ev, e.is_signal_or_wait = false := by
  unfold limit_process
  simp only [limit_loop, cycle, h, List.length_nil, if_true]
  refine ⟨_, _, rfl, rfl, ?_⟩
  intro e he
  simp only [List.mem_append] at he
  rcases he with ((h1 | h1) | h1) | h1
  · exact increase_priority_quiet sys verbose w e h1
  · exact report_quiet verbose _ e h1
  · exact report_quiet verbose _ e h1
  · simp only [List.mem_singleton] at h1
    rw [h1]; rfl

/-- C9 for the scripted system with an empty script, in verbose mode. -/
theorem empty_group_returns_without_signal_witness :
    ∃ s ev,
      limit_process scripted true 1234 (Double.fin (1 / 2)) true (Double.fin 0) 1 ⟨[], []⟩ =
        Outcome.returned s ev ∧
      s.proclist = [] ∧ ∀ e ∈ ev, e.is_signal_or_wait = false :=
  empty_group_returns_without_signal scripted true 1234 (Double.fin (1 / 2)) true (Double.fin 0)
    0 ⟨[], []⟩ rfl

/-- C10. The checks of `main` let the program go on exactly for the accepted
arguments: a limit was given with `0 <= perclimit <= 100 * NCPU`, exactly one
of `--pid`, `--exe` and a trailing command is present, and a pid given with
`--pid` satisfies `1 < pid < get_pid_max()`. For accepted arguments `main`
installs the handlers and goes on with the rest of the program; for all
others it only writes an error and the usage text to standard error and exits
with status 1, so the rest of the program, where `limit_process` is called
and signals are sent, is never reached. -/
theorem configuration_check_accepts_exactly (NCPU pid_max : Int) (a : Arguments) ( lazy : Bool)
    (rest : Double → Bool → List Event) :
    (main_checks NCPU pid_max a = none ↔ accepted_arguments NCPU pid_max a) ∧
    (accepted_arguments NCPU pid_max a →
      main NCPU pid_max a lazy rest =
        [Event.install_handler, Event.install_handler] ++
          rest (Double.div (Double.ofInt a.perclimit) (Double.fin 100))
            (if a.pid ≠ 0 then true else lazy)) ∧
    (¬ accepted_arguments NCPU pid_max a →
      ∃ m, main NCPU pid_max a lazy rest =
        [Event.stderr m, Event.stderr Message.usage, Event.exit 1]) := by
  have hiff := main_checks_none_iff NCPU pid_max a
  refine ⟨hiff, ?_, ?_⟩
  · intro h
    unfold main
    rw [hiff.mpr h]
  · intro h
    unfold main
    cases hc : main_checks NCPU pid_max a with
    | none => exact absurd (hiff.mp hc) h
    | some m => exact ⟨m, rfl⟩

/-- C10 on two CPUs with `--pid=1234`: `--limit=150` is accepted, `--limit=250`
ends with status 1. -/
theorem configuration_check_accepts_exactly_witness :
    accepted_arguments 2 32768 ⟨false, true, true, 1234, 150, false⟩ ∧
    main 2 32768 ⟨false, true, true, 1234, 150, false⟩ false (fun _ _ => []) =
      [Event.install_handler, Event.install_handler] ∧
    ¬ accepted_arguments 2 32768 ⟨false, true, true, 1234, 250, false⟩ ∧
    ∃ m, main 2 32768 ⟨false, true, true, 1234, 250, false⟩ false (fun _ _ => []) =
      [Event.stderr m, Event.stderr Message.usage, Event.exit 1] := by
  have h1 : accepted_arguments 2 32768 ⟨false, true, true, 1234, 150, false⟩ := by
    simp [accepted_arguments]
  have h2 : ¬ accepted_arguments 2 32768 ⟨false, true, true, 1234, 250, false⟩ := by
    simp [accepted_arguments]
  exact ⟨h1,
    by simpa using (configuration_check_accepts_exactly 2 32768
      ⟨false, true, true, 1234, 150, false⟩ false (fun _ _ => [])).2.1 h1,
    h2,
    (configuration_check_accepts_exactly 2 32768
      ⟨false, true, true, 1234, 250, false⟩ false (fun _ _ => [])).2.2 h2⟩

/-! ## The aggregate usage -/

theorem valid_readings_cons (r : Int × ℚ) (rs : List (Int × ℚ)) :
    valid_readings (r :: rs) =
      if 0 ≤ r.2 then r.2 :: valid_readings rs else valid_readings rs := by
  unfold valid_readings
  by_cases h : 0 ≤ r.2 <;> simp [List.filter_cons, h]

theorem valid_readings_nonneg (readings : List (Int × ℚ)) :
    ∀ q ∈ valid_readings readings, 0 ≤ q := by
  intro q hq
  unfold valid_readings at hq
  obtain ⟨r, hr, rfl⟩ := List.mem_map.mp hq
  simpa using (List.mem_filter.mp hr).2

theorem valid_readings_eq_nil (readings : List (Int × ℚ)) :
    valid_readings readings = [] ↔ ∀ r ∈ readings, r.2 < 0 := by
  induction readings with
  | nil => simp [valid_readings]
  | cons r rs ih =>
    rw [valid_readings_cons]
    by_cases h : 0 ≤ r.2
    · simp only [h, if_true, List.mem_cons]
      constructor
      · intro hh
        exact absurd hh (List.cons_ne_nil _ _)
      · intro hh
        exact absurd (hh r (Or.inl rfl)) (not_lt.mpr h)
    · simp only [h, if_false, List.mem_cons, ih]
      constructor
      · intro hh x hx
        rcases hx with rfl | hx
        · exact not_le.mp h
        · exact hh x hx
      · intro hh x hx
        exact hh x (Or.inr hx)

/-- The loop of lines 254-263 once `pcpu` is no longer negative: every valid
reading is added, every negative one is skipped. -/
theorem aggregate_loop_known :
    ∀ (readings : List (Int × ℚ)) (acc : ℚ), 0 ≤ acc →
      aggregate_loop (members_of readings) (Double.fin acc) =
        Double.fin (acc + (valid_readings readings).sum) := by
  intro readings
  induction readings with
  | nil => intro acc _; simp [members_of, aggregate_loop, valid_readings]
  | cons r rs ih =>
    intro acc hacc
    have hnot : ¬ acc < 0 := not_lt.mpr hacc
    rw [valid_readings_cons]
    by_cases h : 0 ≤ r.2
    · have step : aggregate_loop (members_of (r :: rs)) (Double.fin acc) =
          aggregate_loop (members_of rs) (Double.fin (acc + r.2)) := by
        simp [members_of, aggregate_loop, Double.lt, Double.ofInt, Double.add, h, hnot]
      rw [step, ih (acc + r.2) (add_nonneg hacc h)]
      simp [h, add_assoc]
    · have step : aggregate_loop (members_of (r :: rs)) (Double.fin acc) =
          aggregate_loop (members_of rs) (Double.fin acc) := by
        simp [members_of, aggregate_loop, Double.lt, Double.ofInt, not_le.mp h]
      rw [step, ih acc hacc]
      simp [h]

/-- The loop of lines 251-263 from its start `pcpu = -1`. -/
theorem aggregate_usage_eq (readings : List (Int × ℚ)) :
    aggregate_usage (members_of readings) =
      if valid_readings readings = [] then Double.ofInt (-1)
      else Double.fin (valid_readings readings).sum := by
  unfold aggregate_usage
  induction readings with
  | nil => simp [members_of, aggregate_loop, valid_readings]
  | cons r rs ih =>
    rw [valid_readings_cons]
    by_cases h : 0 ≤ r.2
    · have step : aggregate_loop (members_of (r :: rs)) (Double.ofInt (-1)) =
          aggregate_loop (members_of rs) (Double.fin (0 + r.2)) := by
        simp [members_of, aggregate_loop, Double.lt, Double.ofInt, Double.add, h]
      rw [step, aggregate_loop_known rs (0 + r.2) (by simpa using h)]
      simp [h]
    · have step : aggregate_loop (members_of (r :: rs)) (Double.ofInt (-1)) =
          aggregate_loop (members_of rs) (Double.ofInt (-1)) := by
        simp [members_of, aggregate_loop, Double.lt, Double.ofInt, not_le.mp h]
      rw [step, ih]
      simp [h]

/-- C11. For a member list with finite readings, where a negative reading is
the sentinel, the `pcpu` that the loop of `limit_process` computes is the sum of
`cpu_usage` over exactly the members with a non-negative reading, and it is
"unknown" (still negative, so that the first branch of the timing computation
is taken) if and only if no member has such a reading; a list whose
non-negative readings are all 0 gives the known value 0. -/
theorem aggregate_is_sum_of_valid_readings (readings : List (Int × ℚ)) :
    aggregate_usage (members_of readings) =
      (match reference_aggregate readings with
        | none => Double.ofInt (-1)
        | some a => Double.fin a) ∧
    (Double.lt (aggregate_usage (members_of readings)) (Double.ofInt 0) = true ↔
      ∀ r ∈ readings, r.2 < 0) ∧
    (reference_aggregate readings = none ↔ ∀ r ∈ readings, r.2 < 0) ∧
    ((∃ r ∈ readings, 0 ≤ r.2) → (∀ r ∈ readings, 0 ≤ r.2 → r.2 = 0) →
      aggregate_usage (members_of readings) = Double.fin 0 ∧
        Double.lt (aggregate_usage (members_of readings)) (Double.ofInt 0) = false) := by
  have hnil := valid_readings_eq_nil readings
  have hsum : 0 ≤ (valid_readings readings).sum :=
    List.sum_nonneg (valid_readings_nonneg readings)
  have heq := aggregate_usage_eq readings
  have hunknown : Double.lt (aggregate_usage (members_of readings)) (Double.ofInt 0) = true ↔
      ∀ r ∈ readings, r.2 < 0 := by
    rw [heq, ← hnil]
    by_cases h : valid_readings readings = []
    · simp [h, Double.lt, Double.ofInt]
    · simp [h, Double.lt, Double.ofInt, hsum]
  refine ⟨?_, hunknown, ?_, ?_⟩
  · rw [heq]
    unfold reference_aggregate
    by_cases h : valid_readings readings = [] <;> simp [h]
  · unfold reference_aggregate
    rw [← hnil]
    by_cases h : valid_readings readings = [] <;> simp [h]
  · intro hex hzero
    obtain ⟨r, hr, hr0⟩ := hex
    have hne : valid_readings readings ≠ [] := by
      intro h
      exact absurd (hnil.mp h r hr) (not_lt.mpr hr0)
    have hall : ∀ q ∈ valid_readings readings, q = 0 := by
      intro q hq
      unfold valid_readings at hq
      obtain ⟨x, hx, rfl⟩ := List.mem_map.mp hq
      have hx1 := List.mem_filter.mp hx
      exact hzero x hx1.1 (by simpa using hx1.2)
    have h0 : (valid_readings readings).sum = 0 := List.sum_eq_zero hall
    have hval : aggregate_usage (members_of readings) = Double.fin 0 := by
      rw [heq, if_neg hne, h0]
    refine ⟨hval, ?_⟩
    rw [hval]
    simp [Double.lt, Double.ofInt]

/-- C11 for three members with the readings 0, "none" and 0: the aggregate is
the known value 0. -/
theorem aggregate_is_sum_of_valid_readings_witness :
    aggregate_usage (members_of [(1, 0), (2, -1), (3, 0)]) = Double.fin 0 ∧
      Double.lt (aggregate_usage (members_of [(1, 0), (2, -1), (3, 0)])) (Double.ofInt 0) =
        false :=
  (aggregate_is_sum_of_valid_readings [(1, 0), (2, -1), (3, 0)]).2.2.2
    ⟨(1, 0), by simp, le_refl _⟩
    (by
      intro r hr h
      simp only [List.mem_cons, List.mem_singleton] at hr
      rcases hr with rfl | rfl | rfl | hr
      · rfl
      · norm_num at h
      · rfl
      · simp at hr)

end Cpulimit
